import Mathlib

/-!
The shared buffer of `sbuffer.c`.

A shallow embedding of the broadcast queue of `src/sbuffer.c`: a singly linked
chain of heap nodes with a `head` (newest) and a `tail` (oldest) pointer, a
`closed` flag and the identities of the two consumer threads.

* Pointers are `Option Nat` (`none` is `NULL`); the node heap is a map from
  addresses to live nodes.  A freed or never allocated address maps to `none`.
* `pthread_t` values are natural numbers; `0` is the value `create_node` leaves
  in `readBy`, the one `!removed_node->readBy` tests for.
* Every exported function is taken as one atomic step (the rwlock sections are
  not interleaved).  The places where `sbuffer_remove_last` suspends in
  `pthread_cond_wait` are results of their own, and the condition variables a
  call signals are returned next to the new state.
-/

namespace SBuffer

/-! ## Data model -/

/-- A C `double` as this program uses it: the queue only copies the value and
its consumers only compare it with `-INFINITY`.  `num m e` is the finite double
`m * 2 ^ e`. -/
inductive double_t
  | neg_infinity
  | num (m : Int) (e : Int)
deriving DecidableEq, Repr

/-- The `sensor_data_t` of `config.h`: sensor id, measured value, timestamp. -/
structure sensor_data_t where
  id : Nat
  value : double_t
  ts : Nat
deriving DecidableEq, Repr

/-- The `struct sbuffer_node`, lines 20-24.  `prev` points to the next newer
node (the one inserted right after this one). -/
structure sbuffer_node_t where
  prev : Option Nat
  data : sensor_data_t
  readBy : Nat
deriving DecidableEq, Repr

/-- The two condition variables of `struct sbuffer`. -/
inductive cond_t
  | dataMgrCond
  | strgMgrCond
deriving DecidableEq, Repr

/-- The `struct sbuffer`, lines 26-38, together with the heap its nodes live in.
`mem` maps an address to the node stored there (`none`: not allocated, or
freed); `next` is the address the next `malloc` returns. -/
structure sbuffer where
  mem : Nat → Option sbuffer_node_t
  next : Nat
  head : Option Nat
  tail : Option Nat
  closed : Bool
  dataMgr : Nat
  strgMgr : Nat

/-- Modelled from the spec: the two return codes of `sbuffer_insert_first`,
declared in `sbuffer.h` (success / failure). -/
inductive sbuffer_status
  | SBUFFER_SUCCESS
  | SBUFFER_FAILURE
deriving DecidableEq, Repr

/-- What a call of `sbuffer_remove_last` comes to.
* `data d`: `return removed_node->data` / `return ret`, the reading of a node;
* `no_data`: `return data` of lines 133, 154 and 201, a struct of which only
  `value` has been set, to `-INFINITY`;
* `wait_loop c`: suspended in `pthread_cond_wait` on `c` inside the `while`
  loop of line 135; when woken the loop condition is evaluated again;
* `wait_retry c`: lines 203-216, suspended on `c` (no suspension at all for
  `none`), after which the function calls itself again;
* `abort`: an `assert` failed;
* `fault`: a `NULL` or dangling pointer was dereferenced;
* `out_of_fuel`: the scan of line 189 did not finish within the given fuel.

The constructor records which `return` statement was executed.  The C function
returns a `sensor_data_t` on each of them, so the caller cannot tell `no_data`
from `data d` with `d.value = -INFINITY`: what it is given is
`returned_value`. -/
inductive pull_result
  | data (d : sensor_data_t)
  | no_data
  | wait_loop (c : cond_t)
  | wait_retry (c : Option cond_t)
  | abort
  | fault
  | out_of_fuel
deriving DecidableEq, Repr

/-- The `value` field of the struct a call of `sbuffer_remove_last` returns to
its caller; `none` when the call does not return. -/
def returned_value : pull_result → Option double_t
  | .data d => some d.value
  | .no_data => some .neg_infinity
  | _ => none

/-- The call returned and the test `data.value != -INFINITY` of its callers
(`main.c` lines 37 and 57) fails: for the caller there is no reading. -/
def no_more_data (r : pull_result) : Bool :=
  decide (returned_value r = some .neg_infinity)

/-- Write `v` at address `a`. -/
def store (mem : Nat → Option sbuffer_node_t) (a : Nat) (v : Option sbuffer_node_t) :
    Nat → Option sbuffer_node_t :=
  fun x => if x = a then v else mem x

/-! ## Operations -/

/-- Lines 40-47: a fresh node holding a copy of `data`; `prev` and `readBy` are
zeroed by the compound literal.  Returns the new node's address. -/
def create_node (b : sbuffer) (data : sensor_data_t) : Nat × sbuffer :=
  (b.next,
   { b with mem := store b.mem b.next (some { prev := none, data := data, readBy := 0 }),
            next := b.next + 1 })

/-- Lines 49-65. -/
def sbuffer_create : sbuffer :=
  { mem := fun _ => none, next := 0, head := none, tail := none, closed := false,
    dataMgr := 0, strgMgr := 0 }

/-- Lines 67-78: `none` when the assertion `head == tail` fails, `some ()` when
the buffer is torn down. -/
def sbuffer_destroy (b : sbuffer) : Option Unit :=
  if b.head = b.tail then some () else none

/-- Lines 80-86. -/
def sbuffer_is_empty (b : sbuffer) : Bool × sbuffer :=
  (decide (b.head = none), b)

/-- Lines 88-94. -/
def sbuffer_is_closed (b : sbuffer) : Bool × sbuffer :=
  (b.closed, b)

/-- Lines 96-123.  `none` stands for the store through a dangling `head`
pointer at line 109; otherwise the status, the new state and the condition
variables signalled. -/
def sbuffer_insert_first (b : sbuffer) (data : sensor_data_t) :
    Option (sbuffer_status × sbuffer × List cond_t) :=
  if (sbuffer_is_closed b).1 then some (.SBUFFER_FAILURE, b, [])
  else
    let node := (create_node b data).1
    let b1 := (create_node b data).2
    let wasEmpty := decide (b1.head = none)
    let linked : Option sbuffer :=
      match b1.head with
      | none => some b1
      | some h =>
        match b1.mem h with
        | none => none
        | some hn => some { b1 with mem := store b1.mem h (some { hn with prev := some node }) }
    match linked with
    | none => none
    | some b2 =>
      let b3 := { b2 with head := some node }
      let b4 := if b3.tail = none then { b3 with tail := some node } else b3
      some (.SBUFFER_SUCCESS, b4,
            if wasEmpty then [cond_t.dataMgrCond, cond_t.strgMgrCond] else [])

/-- Result of the scan of lines 187-192. -/
inductive scan_result
  | found (prev_node : Nat) (removed_node : Option Nat)
  | fault
  | out_of_fuel
deriving DecidableEq, Repr

/-- Lines 189-192: `while (removed_node != NULL && removed_node->readBy == self)`. -/
def scan (mem : Nat → Option sbuffer_node_t) (self : Nat) :
    Nat → Nat → Option Nat → scan_result
  | _, prev_node, none => .found prev_node none
  | 0, _, some _ => .out_of_fuel
  | fuel + 1, prev_node, some r =>
    match mem r with
    | none => .fault
    | some rn =>
      if rn.readBy = self then scan mem self fuel r rn.prev
      else .found prev_node (some r)

/-- Lines 160-235: everything from `assert(buffer->head != NULL)` on. -/
def remove_from_tail (fuel : Nat) (self : Nat) (b : sbuffer) :
    pull_result × sbuffer × List cond_t :=
  if b.head = none then (.abort, b, [])
  else
    match b.tail with
    | none => (.fault, b, [])
    | some t =>
      match b.mem t with
      | none => (.fault, b, [])
      | some tn =>
        if tn.readBy = 0 then
          (.data tn.data, { b with mem := store b.mem t (some { tn with readBy := self }) }, [])
        else if tn.readBy ≠ self then
          let b1 := if some t = b.head then { b with head := none } else b
          let b2 := { b1 with tail := tn.prev }
          (.data tn.data, { b2 with mem := store b2.mem t none }, [])
        else
          match scan b.mem self fuel t tn.prev with
          | .out_of_fuel => (.out_of_fuel, b, [])
          | .fault => (.fault, b, [])
          | .found _ none =>
            if b.closed then (.no_data, b, [])
            else if self = b.dataMgr then
              (.wait_retry (some .dataMgrCond), b, [cond_t.strgMgrCond])
            else if self = b.strgMgr then (.wait_retry (some .strgMgrCond), b, [])
            else (.wait_retry none, b, [])
          | .found prev_node (some r) =>
            match b.mem r with
            | none => (.fault, b, [])
            | some rn =>
              if rn.readBy = 0 then
                (.data rn.data,
                 { b with mem := store b.mem r (some { rn with readBy := self }) }, [])
              else
                let b1 := if some r = b.head then { b with head := some prev_node } else b
                match b1.mem prev_node with
                | none => (.fault, b, [])
                | some pn =>
                  let m1 := store b1.mem prev_node (some { pn with prev := rn.prev })
                  (.data rn.data, { b1 with mem := store m1 r none }, [])

/-- Lines 135-157 followed by the rest of the function: the `while` condition
is evaluated; a registered thread suspends on its own condition variable, any
other caller returns the sentinel; when the condition is false the function
goes on at the assertion of line 160. -/
def wait_loop (fuel : Nat) (self : Nat) (b : sbuffer) :
    pull_result × sbuffer × List cond_t :=
  if b.head = none ∧ b.closed = false then
    if self = b.dataMgr then (.wait_loop .dataMgrCond, b, [])
    else if self = b.strgMgr then (.wait_loop .strgMgrCond, b, [])
    else (.no_data, b, [])
  else remove_from_tail fuel self b

/-- Lines 125-236, called by the thread `self` (`pthread_self()`). -/
def sbuffer_remove_last (fuel : Nat) (self : Nat) (b : sbuffer) :
    pull_result × sbuffer × List cond_t :=
  if b.head = none then
    if b.closed then (.no_data, b, [])
    else wait_loop fuel self b
  else remove_from_tail fuel self b

/-- A thread suspended with result `wait_loop` is woken: `pthread_cond_wait`
returns, the read lock is taken again and the `while` condition of line 135 is
evaluated again. -/
def sbuffer_remove_last_wake (fuel : Nat) (self : Nat) (b : sbuffer) :
    pull_result × sbuffer × List cond_t :=
  wait_loop fuel self b

/-- Lines 238-243.  No condition variable is signalled. -/
def sbuffer_close (b : sbuffer) : sbuffer × List cond_t :=
  ({ b with closed := true }, [])

/-- Lines 246-251. -/
def mgrs (b : sbuffer) (dataMgr strgMgr : Nat) : sbuffer :=
  { b with dataMgr := dataMgr, strgMgr := strgMgr }

/-! ## Sequences of calls -/

/-- One atomic call on the buffer: an insertion, the closing of the buffer, a
fresh call of `sbuffer_remove_last` by thread `self`, or the wake-up of thread
`self` out of the `pthread_cond_wait` of the `while` loop. -/
inductive op
  | insert (d : sensor_data_t)
  | close
  | pull (self : Nat)
  | wake (self : Nat)
deriving DecidableEq, Repr

/-- What a call is observed to do. `blocked` is a call that suspended (both
`wait_loop` and `wait_retry`); `crashed` is an assertion failure, a memory
fault or an exhausted scan. -/
inductive event
  | inserted (d : sensor_data_t)
  | insert_failed
  | closed
  | delivered (self : Nat) (d : sensor_data_t)
  | no_data (self : Nat)
  | blocked (self : Nat)
  | crashed
deriving DecidableEq, Repr

/-- The event a result of `sbuffer_remove_last` shows to its caller `self`. -/
def pull_event (self : Nat) : pull_result → event
  | .data d => .delivered self d
  | .no_data => .no_data self
  | .wait_loop _ => .blocked self
  | .wait_retry _ => .blocked self
  | .abort => .crashed
  | .fault => .crashed
  | .out_of_fuel => .crashed

/-- One call: the state after it and the event it shows.  The scan of
`sbuffer_remove_last` is given `b.next` steps, one for every address ever
allocated. -/
def step (b : sbuffer) : op → sbuffer × event
  | .insert d =>
    match sbuffer_insert_first b d with
    | some (.SBUFFER_SUCCESS, b1, _) => (b1, .inserted d)
    | some (.SBUFFER_FAILURE, b1, _) => (b1, .insert_failed)
    | none => (b, .crashed)
  | .close => ((sbuffer_close b).1, .closed)
  | .pull self =>
    ((sbuffer_remove_last b.next self b).2.1, pull_event self (sbuffer_remove_last b.next self b).1)
  | .wake self =>
    ((sbuffer_remove_last_wake b.next self b).2.1,
     pull_event self (sbuffer_remove_last_wake b.next self b).1)

/-- A sequence of calls, one after the other: the final state and the events. -/
def run : sbuffer → List op → sbuffer × List event
  | b, [] => (b, [])
  | b, o :: os => ((run (step b o).1 os).1, (step b o).2 :: (run (step b o).1 os).2)

/-- The state reached and the events seen when the calls `ops` are made, in
this order, on a fresh buffer on which `x` has been registered as data manager
and `y` as storage manager.  `mgrs` with `0 0` changes nothing, so `reach 0 0`
starts from `sbuffer_create()` itself. -/
def reach (x y : Nat) (ops : List op) : sbuffer × List event :=
  run (mgrs sbuffer_create x y) ops

/-- The readings inserted successfully, in the order of insertion. -/
def inserted (evs : List event) : List sensor_data_t :=
  evs.filterMap fun e => match e with
    | .inserted d => some d
    | _ => none

/-- The readings `sbuffer_remove_last` returned to thread `self`, in order. -/
def delivered (self : Nat) (evs : List event) : List sensor_data_t :=
  evs.filterMap fun e => match e with
    | .delivered s d => if s = self then some d else none
    | _ => none

/-- The readings thread `self` takes as readings: those returned to it whose
`value` is not `-INFINITY` (`main.c` lines 37-38 and 57-58). -/
def received (self : Nat) (evs : List event) : List sensor_data_t :=
  (delivered self evs).filter fun d => decide (d.value ≠ .neg_infinity)

/-- Some call of thread `self` has returned a struct whose `value` is
`-INFINITY`: the sentinel built by the function, or a reading of that value. -/
def got_no_more_data (self : Nat) (evs : List event) : Bool :=
  evs.any fun e => match e with
    | .no_data s => decide (s = self)
    | .delivered s d => decide (s = self) && decide (d.value = .neg_infinity)
    | _ => false

/-- The call `o` is an insertion, a close, or a `pull` / `wake` made by thread
`A` or thread `B`. -/
def by_role (A B : Nat) : op → Bool
  | .pull s => decide (s = A) || decide (s = B)
  | .wake s => decide (s = A) || decide (s = B)
  | _ => true

/-- Every `pull` and `wake` of the sequence is made by thread `A` or thread `B`. -/
def by_roles (A B : Nat) (ops : List op) : Prop :=
  ∀ o ∈ ops, by_role A B o = true

instance (A B : Nat) (ops : List op) : Decidable (by_roles A B ops) := by
  unfold by_roles
  infer_instance

/-- The nodes met when following `prev` from `p`, at most `fuel` of them. -/
def walk (mem : Nat → Option sbuffer_node_t) : Nat → Option Nat → List sbuffer_node_t
  | 0, _ => []
  | _ + 1, none => []
  | fuel + 1, some a =>
    match mem a with
    | none => []
    | some n => n :: walk mem fuel n.prev

/-- The node chain from `tail` (oldest) to `head` (newest). -/
def chain (b : sbuffer) : List sbuffer_node_t :=
  walk b.mem b.next b.tail

/-- The readings of the chain that thread `self` has not been given yet: the
data of the nodes not marked as read by `self`, oldest first. -/
def pending (self : Nat) (b : sbuffer) : List sensor_data_t :=
  ((chain b).filter fun n => decide (n.readBy ≠ self)).map fun n => n.data

/-- Number of heap cells holding a live node. -/
def live_nodes (b : sbuffer) : Nat :=
  ((List.range b.next).filter fun a => (b.mem a).isSome).length

/-- The readings `L` are inserted in order, then thread `A` calls
`sbuffer_remove_last` once for each of them. -/
def skew_fill (A : Nat) (L : List sensor_data_t) : List op :=
  L.map op.insert ++ List.replicate L.length (op.pull A)

/-- After `skew_fill` the buffer is closed, thread `B` calls
`sbuffer_remove_last` once for each reading, and then once more. -/
def skew_drain (A B : Nat) (L : List sensor_data_t) : List op :=
  skew_fill A L ++ [op.close] ++ List.replicate L.length (op.pull B) ++ [op.pull B]

/-! ## Sample inputs -/

/-- The reading `(1, 20.0, 100)`. -/
def reading1 : sensor_data_t := { id := 1, value := .num 20 0, ts := 100 }

/-- The reading `(1, 21.0, 101)`. -/
def reading2 : sensor_data_t := { id := 1, value := .num 21 0, ts := 101 }

/-- The reading `(2, 19.5, 102)`; `19.5 = 39 * 2 ^ (-1)`. -/
def reading3 : sensor_data_t := { id := 2, value := .num 39 (-1), ts := 102 }

/-- The reading `(5, -INFINITY, 100)`. -/
def reading_inf : sensor_data_t := { id := 5, value := .neg_infinity, ts := 100 }

/-- The reading of value `-INFINITY` and a second reading are inserted, then
the buffer is closed. -/
def sample_inf : List op :=
  [.insert reading_inf, .insert reading2, .close]

/-- A run of threads `1` and `2` in which thread `1` is ahead, the buffer is
closed, both threads drain it and see the sentinel, and a late insertion is
refused. -/
def sample_ops : List op :=
  [.pull 1, .insert reading1, .wake 1, .pull 1, .insert reading2, .pull 2, .close,
   .pull 1, .pull 2, .pull 1, .pull 2, .insert reading3]

/-- Three insertions, then thread `1` reads twice and thread `2` once: one
node has been reclaimed, one is marked by thread `1`, one is unread. -/
def sample_skew : List op :=
  [.insert reading1, .insert reading2, .insert reading3, .pull 1, .pull 1, .pull 2]

/-- Two insertions, one read by thread `1`, then the buffer is closed. -/
def sample_closed : List op :=
  [.insert reading1, .insert reading2, .pull 1, .close]

/-- One insertion, read by thread `1` only: thread `1` has been given every
node of the chain, thread `2` none, and the buffer is open. -/
def sample_ahead : List op :=
  [.insert reading1, .pull 1]

/-! ## Representation invariant -/

/-- One node of the chain as the invariant sees it: its address, its reading
and its `readBy` mark. -/
structure cell where
  addr : Nat
  data : sensor_data_t
  mark : Nat
deriving DecidableEq, Repr

/-- The addresses of a list of cells. -/
def addrs (l : List cell) : List Nat :=
  l.map fun c => c.addr

/-- Address of the first cell of a list, `none` for the empty list. -/
def first_addr (l : List cell) : Option Nat :=
  (addrs l).head?

/-- Every cell of `l` is a live node of `mem` holding the cell's reading and
mark, whose `prev` is the address of the cell after it (`NULL` for the last). -/
def linked (mem : Nat → Option sbuffer_node_t) : List cell → Prop
  | [] => True
  | c :: cs =>
    mem c.addr = some { prev := first_addr cs, data := c.data, readBy := c.mark } ∧ linked mem cs

/-- The buffer `b` holds exactly the cells `l`, oldest first: `tail` is the
first, `head` the last, the nodes are linked through `prev`, no address occurs
twice, no other node is live, and all addresses were handed out by `malloc`. -/
def Inv (b : sbuffer) (l : List cell) : Prop :=
  b.tail = (addrs l).head? ∧
  b.head = (addrs l).getLast? ∧
  linked b.mem l ∧
  (addrs l).Nodup ∧
  (∀ a n, b.mem a = some n → a ∈ addrs l) ∧
  (∀ a ∈ addrs l, a < b.next) ∧
  l.length ≤ b.next

/-- The nodes a list of cells stands for. -/
def to_nodes : List cell → List sbuffer_node_t
  | [] => []
  | c :: cs => { prev := first_addr cs, data := c.data, readBy := c.mark } :: to_nodes cs

/-- A consumer (`A` or `B`) that is registered (as `x` or as `y`) and was
handed the sentinel was handed it on a closed buffer, after it had been given
every inserted reading. -/
def sentinel_ok (A B x y : Nat) (b : sbuffer) (evs : List event) : Prop :=
  ∀ s, s = A ∨ s = B → s = x ∨ s = y → event.no_data s ∈ evs →
    b.closed = true ∧ delivered s evs = inserted evs

/-- The state `b` and the events `evs` seen so far fit together, `A` and `B`
being the two threads that call `sbuffer_remove_last`, `x` the registered data
manager and `y` the registered storage manager.  The chain is a
run `P` of nodes all marked by one thread `o` (the one ahead) followed by a run
`U` of unmarked nodes; the thread behind, `o1`, has been given exactly the
readings inserted before the chain, the thread ahead those and the readings of
`P`; and a thread that saw the sentinel did so on a closed buffer after it had
been given every inserted reading. -/
def TI (A B x y : Nat) (b : sbuffer) (evs : List event) : Prop :=
  b.dataMgr = x ∧ b.strgMgr = y ∧
  ∃ (P U : List cell) (o o1 : Nat),
    ((o = A ∧ o1 = B) ∨ (o = B ∧ o1 = A)) ∧
    Inv b (P ++ U) ∧
    (∀ x ∈ P, x.mark = o) ∧ (∀ x ∈ U, x.mark = 0) ∧
    inserted evs = delivered o1 evs ++ ((P ++ U).map fun c => c.data) ∧
    delivered o evs = delivered o1 evs ++ (P.map fun c => c.data) ∧
    sentinel_ok A B x y b evs

/-! ## The scan's second exit -/

/-- Whether a call of `remove_from_tail` runs the unlinking of lines 226-234:
the assertion of line 160 holds, the tail node is marked by the caller (lines
167 and 173 are both false), the scan of lines 187-192 stops at a node, and
that node is marked (line 220 is false). -/
def mid_chain_unlink (fuel self : Nat) (b : sbuffer) : Bool :=
  if b.head = none then false
  else
    match b.tail with
    | none => false
    | some t =>
      match b.mem t with
      | none => false
      | some tn =>
        if tn.readBy = 0 then false
        else if tn.readBy ≠ self then false
        else
          match scan b.mem self fuel t tn.prev with
          | .found _ (some r) =>
            match b.mem r with
            | none => false
            | some rn => decide (rn.readBy ≠ 0)
          | _ => false

/-- A hand-built buffer of two nodes, the older one marked by thread `1` and
the newer one by thread `2`. -/
def sample_mixed : sbuffer :=
  { mem := fun a =>
      if a = 0 then some { prev := some 1, data := reading1, readBy := 1 }
      else if a = 1 then some { prev := none, data := reading2, readBy := 2 }
      else none,
    next := 2, head := some 1, tail := some 0, closed := false, dataMgr := 1, strgMgr := 2 }

/-! ## The command line of `main.c` -/

/-- The `isspace` of the C locale: space, `\t`, `\n`, `\v`, `\f`, `\r`. -/
def isspace (c : Char) : Bool :=
  decide (c.toNat = 32) || (decide (9 ≤ c.toNat) && decide (c.toNat ≤ 13))

/-- The decimal digits `0` to `9`. -/
def isdigit (c : Char) : Bool :=
  decide (48 ≤ c.toNat) && decide (c.toNat ≤ 57)

/-- The number a run of decimal digits stands for. -/
def digits_value (ds : List Char) : Nat :=
  ds.foldl (fun v c => 10 * v + (c.toNat - 48)) 0

/-- The largest `long` (64 bits). -/
def LONG_MAX : Int := 9223372036854775807

/-- The smallest `long` (64 bits). -/
def LONG_MIN : Int := -9223372036854775808

/-- The C library's `strtol(nptr, &endptr, 10)`: white space is skipped, an
optional sign and a non-empty run of decimal digits are converted, the value is
clamped to the range of `long`, and `endptr` is left at the first character
after the digits; when there is no digit nothing is converted and `endptr` is
`nptr`. Returns the value and the string `endptr` points to. -/
def strtol (nptr : List Char) : Int × List Char :=
  let s1 := nptr.dropWhile isspace
  let neg := decide (s1.head? = some '-')
  let s2 := match s1 with
    | [] => []
    | c :: r => if c = '-' ∨ c = '+' then r else c :: r
  let ds := s2.takeWhile isdigit
  if ds = [] then (0, nptr)
  else
    let v : Int := if neg then -(digits_value ds : Int) else (digits_value ds : Int)
    (max LONG_MIN (min v LONG_MAX), s2.dropWhile isdigit)

/-- The conversion of line 73, `int port_number = strtol(...)`, from `long` to
a 32-bit `int`. -/
def long_to_int (v : Int) : Int :=
  (v + 2147483648) % 4294967296 - 2147483648

/-- How `main` goes on from its argument checks: either `print_usage` has
printed the usage line and `main` returns its status, before line 77; or
control reaches line 77, where the buffer is created and the threads are
started, with the given port number. -/
inductive main_result
  | usage (status : Int)
  | serves (port_number : Int)
deriving DecidableEq, Repr

/-- Lines 26-29 of `main.c`: prints the usage line and returns `-1`. -/
def print_usage : main_result :=
  .usage (-1)

/-- Lines 68-77 of `main.c`; `argv` holds the program name and the arguments,
`argc` is its length. -/
def main (argv : List (List Char)) : main_result :=
  if argv.length ≠ 2 then print_usage
  else
    let strport := argv.getD 1 []
    let error_char := (strtol strport).2
    let port_number := long_to_int (strtol strport).1
    if strport = [] ∨ error_char ≠ [] then print_usage
    else .serves port_number

/-- The arguments `main` takes for a port number: optional white space, an
optional sign, one or more decimal digits, and nothing after them. -/
def port_argument (a : List Char) : Prop :=
  ∃ ws sign ds, a = ws ++ sign ++ ds ∧ (∀ c ∈ ws, isspace c = true) ∧
    (sign = [] ∨ sign = ['+'] ∨ sign = ['-']) ∧ ds ≠ [] ∧ ∀ c ∈ ds, isdigit c = true

/-! ## Heap lemmas -/

theorem scan_none (mem : Nat → Option sbuffer_node_t) (self fuel p0 : Nat) :
    scan mem self fuel p0 none = .found p0 none := by
  cases fuel <;> rfl

theorem scan_some (mem : Nat → Option sbuffer_node_t) (self fuel p0 r : Nat)
    (rn : sbuffer_node_t) (h : mem r = some rn) :
    scan mem self (fuel + 1) p0 (some r)
      = if rn.readBy = self then scan mem self fuel r rn.prev else .found p0 (some r) := by
  simp [scan, h]

theorem store_same (mem : Nat → Option sbuffer_node_t) (a : Nat) (v : Option sbuffer_node_t) :
    store mem a v a = v := by
  simp [store]

theorem store_other (mem : Nat → Option sbuffer_node_t) (a x : Nat) (v : Option sbuffer_node_t)
    (h : x ≠ a) : store mem a v x = mem x := by
  simp [store, h]

theorem addrs_cons (c : cell) (l : List cell) : addrs (c :: l) = c.addr :: addrs l := rfl

theorem addrs_append (l1 l2 : List cell) : addrs (l1 ++ l2) = addrs l1 ++ addrs l2 := by
  simp [addrs]

theorem addrs_nil : addrs [] = [] := rfl

theorem addrs_length (l : List cell) : (addrs l).length = l.length := by
  simp [addrs]

theorem addrs_mark (P : List cell) (c : cell) (R : List cell) (m : Nat) :
    addrs (P ++ { addr := c.addr, data := c.data, mark := m } :: R) = addrs (P ++ c :: R) := by
  simp [addrs]

theorem linked_frame (mem : Nat → Option sbuffer_node_t) (a : Nat) (v : Option sbuffer_node_t)
    (l : List cell) (ha : a ∉ addrs l) (h : linked mem l) :
    linked (store mem a v) l := by
  induction l with
  | nil => trivial
  | cons c cs ih =>
    simp only [addrs_cons, List.mem_cons, not_or] at ha
    refine ⟨?_, ih ha.2 h.2⟩
    rw [store_other _ _ _ _ (Ne.symm ha.1)]
    exact h.1

theorem linked_mark (mem : Nat → Option sbuffer_node_t) (P : List cell) (c : cell)
    (R : List cell) (m : Nat) (h : linked mem (P ++ c :: R))
    (hnd : (addrs (P ++ c :: R)).Nodup) :
    linked (store mem c.addr (some { prev := first_addr R, data := c.data, readBy := m }))
      (P ++ { addr := c.addr, data := c.data, mark := m } :: R) := by
  induction P with
  | nil =>
    simp only [List.nil_append, addrs_cons, List.nodup_cons] at hnd h ⊢
    exact ⟨store_same _ _ _, linked_frame _ _ _ _ hnd.1 h.2⟩
  | cons p P ih =>
    simp only [List.cons_append, addrs_cons, List.nodup_cons, addrs_append,
      List.mem_append, List.mem_cons, not_or] at hnd
    refine ⟨?_, ih h.2 (by simpa [addrs_append, addrs_cons] using hnd.2)⟩
    rw [store_other _ _ _ _ hnd.1.2.1]
    have e : first_addr (P.append ({ addr := c.addr, data := c.data, mark := m } :: R))
        = first_addr (P.append (c :: R)) := congrArg List.head? (addrs_mark P c R m)
    rw [e]
    exact h.1

theorem linked_append (mem : Nat → Option sbuffer_node_t) (P R : List cell)
    (h : linked mem (P ++ R)) : linked mem R := by
  induction P with
  | nil => exact h
  | cons p P ih => exact ih h.2

theorem linked_snoc (mem : Nat → Option sbuffer_node_t) (l0 : List cell) (hc : cell)
    (a : Nat) (d : sensor_data_t) (h : linked mem (l0 ++ [hc]))
    (hnd : (addrs (l0 ++ [hc])).Nodup) (ha : a ∉ addrs (l0 ++ [hc])) :
    linked (store (store mem a (some { prev := none, data := d, readBy := 0 })) hc.addr
        (some { prev := some a, data := hc.data, readBy := hc.mark }))
      (l0 ++ [hc, { addr := a, data := d, mark := 0 }]) := by
  induction l0 with
  | nil =>
    simp only [List.nil_append, addrs_cons, addrs_nil, List.mem_singleton] at ha ⊢
    refine ⟨store_same _ _ _, ?_, trivial⟩
    rw [store_other _ _ _ _ ha]
    exact store_same _ _ _
  | cons p P ih =>
    simp only [List.cons_append, addrs_cons, List.nodup_cons, addrs_append,
      List.mem_append, List.mem_cons, not_or, addrs_nil, List.not_mem_nil, or_false] at hnd ha
    refine ⟨?_, ih h.2 (by simpa [addrs_append, addrs_cons] using hnd.2)
      (by simpa [addrs_append, addrs_cons, addrs_nil] using ha.2)⟩
    rw [store_other _ _ _ _ hnd.1.2, store_other _ _ _ _ (Ne.symm ha.1)]
    have e : first_addr (P.append [hc, { addr := a, data := d, mark := 0 }])
        = first_addr (P.append [hc]) := by
      cases P <;> simp [first_addr, addrs]
    rw [e]
    exact h.1

theorem Inv_front (b : sbuffer) (c : cell) (cs : List cell) (h : Inv b (c :: cs)) :
    b.tail = some c.addr ∧ b.head ≠ none ∧
    b.mem c.addr = some { prev := first_addr cs, data := c.data, readBy := c.mark } := by
  obtain ⟨ht, hh, hl, -⟩ := h
  refine ⟨by simpa [addrs_cons] using ht, ?_, hl.1⟩
  rw [hh, addrs_cons]
  cases hc : addrs cs <;> simp

theorem Inv_nil_head (b : sbuffer) (h : Inv b []) : b.head = none ∧ b.tail = none := by
  obtain ⟨ht, hh, -⟩ := h
  exact ⟨by simpa [addrs_nil] using hh, by simpa [addrs_nil] using ht⟩

theorem Inv_head_none (b : sbuffer) (l : List cell) (h : Inv b l) (hn : b.head = none) :
    l = [] := by
  cases l with
  | nil => rfl
  | cons c cs => exact absurd hn (Inv_front b c cs h).2.1

theorem Inv_mark (b : sbuffer) (P : List cell) (c : cell) (R : List cell) (m : Nat)
    (h : Inv b (P ++ c :: R)) :
    Inv { b with mem := store b.mem c.addr
                          (some { prev := first_addr R, data := c.data, readBy := m }) }
      (P ++ { addr := c.addr, data := c.data, mark := m } :: R) := by
  obtain ⟨ht, hh, hl, hnd, hlive, hlt, hlen⟩ := h
  refine ⟨?_, ?_, linked_mark _ _ _ _ _ hl hnd, ?_, ?_, ?_, ?_⟩
  · rw [addrs_mark]; exact ht
  · rw [addrs_mark]; exact hh
  · rw [addrs_mark]; exact hnd
  · intro a n han
    rw [addrs_mark]
    by_cases hac : a = c.addr
    · subst hac; simp [addrs_append, addrs_cons]
    · have han1 : b.mem a = some n := by
        rw [← store_other b.mem c.addr a _ hac]; exact han
      exact hlive a n han1
  · rw [addrs_mark]; exact hlt
  · simpa using hlen

theorem Inv_unlink (b : sbuffer) (c : cell) (cs : List cell) (h : Inv b (c :: cs)) :
    Inv { b with head := if some c.addr = b.head then none else b.head,
                 tail := first_addr cs,
                 mem := store b.mem c.addr none } cs := by
  obtain ⟨ht, hh, hl, hnd, hlive, hlt, hlen⟩ := h
  rw [addrs_cons] at hh hnd hlive hlt
  have hnd1 := (List.nodup_cons.1 hnd).1
  refine ⟨rfl, ?_, linked_frame _ _ _ _ hnd1 hl.2, (List.nodup_cons.1 hnd).2, ?_, ?_, ?_⟩
  · show (if some c.addr = b.head then none else b.head) = (addrs cs).getLast?
    cases hcs : addrs cs with
    | nil => simp [hh, hcs]
    | cons x xs =>
      rw [hcs] at hh hnd1
      have hlast : (c.addr :: x :: xs).getLast? = (x :: xs).getLast? := by simp [List.getLast?_cons_cons]
      rw [hh, hlast]
      have hx : (x :: xs).getLast? = some ((x :: xs).getLast (by simp)) := List.getLast?_eq_getLast _ _
      rw [hx]
      have hm : (x :: xs).getLast (by simp) ∈ x :: xs := List.getLast_mem _
      have hne : c.addr ≠ (x :: xs).getLast (by simp) := fun e => hnd1 (e ▸ hm)
      simp [hne]
  · intro a n han
    by_cases hac : a = c.addr
    · subst hac
      simp [store_same] at han
    · have han1 : b.mem a = some n := by
        rw [← store_other b.mem c.addr a none hac]; exact han
      rcases List.mem_cons.1 (hlive a n han1) with e | e
      · exact absurd e hac
      · exact e
  · intro a ha
    exact hlt a (List.mem_cons_of_mem _ ha)
  · simp only [List.length_cons] at hlen
    show cs.length ≤ b.next
    omega

theorem scan_run (mem : Nat → Option sbuffer_node_t) (self : Nat) (P R : List cell) :
    ∀ (fuel p0 : Nat), linked mem (P ++ R) → (∀ x ∈ P, x.mark = self) →
      (∀ r ∈ R.head?, r.mark ≠ self) → P.length + 1 ≤ fuel →
      ∃ pn, scan mem self fuel p0 (first_addr (P ++ R)) = .found pn (first_addr R) := by
  induction P with
  | nil =>
    intro fuel p0 hl _ hR hf
    cases R with
    | nil => exact ⟨p0, scan_none _ _ _ _⟩
    | cons r R =>
      obtain ⟨f, rfl⟩ : ∃ f, fuel = f + 1 := ⟨fuel - 1, by omega⟩
      refine ⟨p0, ?_⟩
      have hr : r.mark ≠ self := hR r (by simp)
      show scan mem self (f + 1) p0 (some r.addr) = _
      rw [scan_some _ _ _ _ _ _ hl.1]
      simp [hr, first_addr, addrs]
  | cons p P ih =>
    intro fuel p0 hl hP hR hf
    obtain ⟨f, rfl⟩ : ∃ f, fuel = f + 1 := ⟨fuel - 1, by omega⟩
    have hp : p.mark = self := hP p (by simp)
    obtain ⟨pn, hpn⟩ := ih f p.addr hl.2 (fun x hx => hP x (List.mem_cons_of_mem _ hx)) hR
      (by simp only [List.length_cons] at hf; omega)
    refine ⟨pn, ?_⟩
    show scan mem self (f + 1) p0 (some p.addr) = _
    rw [scan_some _ _ _ _ _ _ hl.1]
    simp only [hp, if_true]
    exact hpn

theorem pull_unread (fuel self : Nat) (b : sbuffer) (c : cell) (cs : List cell)
    (h : Inv b (c :: cs)) (hm : c.mark = 0) :
    remove_from_tail fuel self b
      = (.data c.data,
         { b with mem := store b.mem c.addr
                           (some { prev := first_addr cs, data := c.data, readBy := self }) },
         []) := by
  obtain ⟨ht, hh, hmem⟩ := Inv_front b c cs h
  unfold remove_from_tail
  simp [ht, hh, hmem, hm]

theorem pull_other (fuel self : Nat) (b : sbuffer) (c : cell) (cs : List cell)
    (h : Inv b (c :: cs)) (hm : c.mark ≠ 0) (hs : c.mark ≠ self) :
    remove_from_tail fuel self b
      = (.data c.data,
         { b with head := if some c.addr = b.head then none else b.head,
                  tail := first_addr cs,
                  mem := store b.mem c.addr none },
         []) := by
  obtain ⟨ht, hh, hmem⟩ := Inv_front b c cs h
  unfold remove_from_tail
  simp only [hh, if_false, ht, hmem, hm, hs, ne_eq, not_false_eq_true, if_true]
  by_cases e : some c.addr = b.head <;> simp [e]

theorem pull_all_read (fuel self : Nat) (b : sbuffer) (c : cell) (P : List cell)
    (h : Inv b (c :: P)) (hP : ∀ x ∈ c :: P, x.mark = self) (hs : self ≠ 0)
    (hf : P.length + 1 ≤ fuel) :
    remove_from_tail fuel self b
      = if b.closed then (.no_data, b, [])
        else if self = b.dataMgr then
          (.wait_retry (some .dataMgrCond), b, [cond_t.strgMgrCond])
        else if self = b.strgMgr then (.wait_retry (some .strgMgrCond), b, [])
        else (.wait_retry none, b, []) := by
  obtain ⟨ht, hh, hmem⟩ := Inv_front b c P h
  have hc : c.mark = self := hP c (by simp)
  obtain ⟨pn, hpn⟩ := scan_run b.mem self P [] fuel c.addr (by simpa using h.2.2.1.2)
    (fun x hx => hP x (List.mem_cons_of_mem _ hx)) (by simp) hf
  simp only [List.append_nil] at hpn
  unfold remove_from_tail
  simp only [hh, if_false, ht, hmem, hc, hs, ne_eq, not_true_eq_false, hpn]
  rfl

theorem pull_next (fuel self : Nat) (b : sbuffer) (c : cell) (P : List cell) (u : cell)
    (U : List cell) (h : Inv b (c :: P ++ u :: U)) (hP : ∀ x ∈ c :: P, x.mark = self)
    (hs : self ≠ 0) (hu : u.mark = 0) (hf : P.length + 1 ≤ fuel) :
    remove_from_tail fuel self b
      = (.data u.data,
         { b with mem := store b.mem u.addr
                           (some { prev := first_addr U, data := u.data, readBy := self }) },
         []) := by
  obtain ⟨ht, hh, hmem⟩ := Inv_front b c (P ++ u :: U) h
  have hc : c.mark = self := hP c (by simp)
  have hl : linked b.mem (P ++ u :: U) := h.2.2.1.2
  obtain ⟨pn, hpn⟩ := scan_run b.mem self P (u :: U) fuel c.addr hl
    (fun x hx => hP x (List.mem_cons_of_mem _ hx))
    (by intro r hr; simp at hr; subst hr; rw [hu]; exact fun e => hs e.symm) hf
  have hum : b.mem u.addr = some { prev := first_addr U, data := u.data, readBy := u.mark } :=
    (linked_append _ _ _ hl).1
  have hfa : first_addr (u :: U) = some u.addr := rfl
  rw [hfa] at hpn
  unfold remove_from_tail
  simp only [hh, if_false, ht, hmem, hc, hs, ne_eq, not_true_eq_false, hpn, hum, hu, if_true]

theorem insert_closed (b : sbuffer) (d : sensor_data_t) (h : b.closed = true) :
    sbuffer_insert_first b d = some (.SBUFFER_FAILURE, b, []) := by
  simp [sbuffer_insert_first, sbuffer_is_closed, h]

theorem insert_open_nil (b : sbuffer) (d : sensor_data_t) (h : Inv b [])
    (ho : b.closed = false) :
    sbuffer_insert_first b d
      = some (.SBUFFER_SUCCESS,
          { b with mem := store b.mem b.next (some { prev := none, data := d, readBy := 0 }),
                   next := b.next + 1, head := some b.next, tail := some b.next },
          [cond_t.dataMgrCond, cond_t.strgMgrCond]) := by
  obtain ⟨hh, ht⟩ := Inv_nil_head b h
  simp [sbuffer_insert_first, sbuffer_is_closed, ho, create_node, hh, ht]

theorem Inv_last (b : sbuffer) (l0 : List cell) (hc : cell) (h : Inv b (l0 ++ [hc])) :
    b.head = some hc.addr ∧ b.tail ≠ none ∧
    b.mem hc.addr = some { prev := none, data := hc.data, readBy := hc.mark } ∧
    hc.addr ≠ b.next := by
  obtain ⟨ht, hh, hl, hnd, hlive, hlt, hlen⟩ := h
  refine ⟨?_, ?_, (linked_append _ _ _ hl).1, ?_⟩
  · rw [hh, addrs_append]; simp [addrs]
  · rw [ht]; cases l0 <;> simp [addrs]
  · exact Nat.ne_of_lt (hlt hc.addr (by simp [addrs]))

theorem insert_open_snoc (b : sbuffer) (d : sensor_data_t) (l0 : List cell) (hc : cell)
    (h : Inv b (l0 ++ [hc])) (ho : b.closed = false) :
    sbuffer_insert_first b d
      = some (.SBUFFER_SUCCESS,
          { b with mem := store (store b.mem b.next (some { prev := none, data := d, readBy := 0 }))
                            hc.addr (some { prev := some b.next, data := hc.data, readBy := hc.mark }),
                   next := b.next + 1, head := some b.next },
          []) := by
  obtain ⟨hh, ht, hm, hne⟩ := Inv_last b l0 hc h
  simp [sbuffer_insert_first, sbuffer_is_closed, ho, create_node, hh, ht,
    store_other _ _ _ _ hne, hm]

theorem Inv_insert_nil (b : sbuffer) (d : sensor_data_t) (h : Inv b []) :
    Inv { b with mem := store b.mem b.next (some { prev := none, data := d, readBy := 0 }),
                 next := b.next + 1, head := some b.next, tail := some b.next }
      [{ addr := b.next, data := d, mark := 0 }] := by
  obtain ⟨ht, hh, hl, hnd, hlive, hlt, hlen⟩ := h
  refine ⟨rfl, rfl, ⟨store_same _ _ _, trivial⟩, by simp [addrs], ?_, ?_, ?_⟩
  · intro a n han
    by_cases e : a = b.next
    · simp [addrs, e]
    · have han1 : b.mem a = some n := by
        rw [← store_other b.mem b.next a _ e]; exact han
      exact absurd (hlive a n han1) (by simp [addrs])
  · intro a ha
    simp only [addrs, List.map_cons, List.map_nil, List.mem_singleton] at ha
    show a < b.next + 1
    omega
  · show 1 ≤ b.next + 1
    omega

theorem Inv_insert_snoc (b : sbuffer) (d : sensor_data_t) (l0 : List cell) (hc : cell)
    (h : Inv b (l0 ++ [hc])) :
    Inv { b with mem := store (store b.mem b.next (some { prev := none, data := d, readBy := 0 }))
                          hc.addr (some { prev := some b.next, data := hc.data, readBy := hc.mark }),
                 next := b.next + 1, head := some b.next }
      ((l0 ++ [hc]) ++ [{ addr := b.next, data := d, mark := 0 }]) := by
  obtain ⟨ht, hh, hl, hnd, hlive, hlt, hlen⟩ := h
  have hfresh : b.next ∉ addrs (l0 ++ [hc]) := fun hm => Nat.lt_irrefl _ (hlt _ hm)
  refine ⟨?_, ?_, ?_, ?_, ?_, ?_, ?_⟩
  · show b.tail = _
    rw [ht]; cases l0 <;> simp [addrs]
  · show some b.next = _
    rw [addrs_append]; simp [addrs]
  · have := linked_snoc b.mem l0 hc b.next d hl hnd hfresh
    simpa using this
  · rw [addrs_append]
    refine List.Nodup.append hnd (by simp [addrs]) ?_
    intro a ha ha2
    simp only [addrs, List.map_cons, List.map_nil, List.mem_singleton] at ha2
    exact hfresh (ha2 ▸ ha)
  · intro a n han
    rw [addrs_append]
    by_cases e1 : a = hc.addr
    · subst e1; simp [addrs]
    · by_cases e2 : a = b.next
      · subst e2; simp [addrs]
      · have han1 : b.mem a = some n := by
          have h1 := store_other (store b.mem b.next (some { prev := none, data := d, readBy := 0 }))
            hc.addr a (some { prev := some b.next, data := hc.data, readBy := hc.mark }) e1
          have h2 := store_other b.mem b.next a (some { prev := none, data := d, readBy := 0 }) e2
          rw [← h2, ← h1]; exact han
        exact List.mem_append_left _ (hlive a n han1)
  · intro a ha
    rw [addrs_append] at ha
    show a < b.next + 1
    rcases List.mem_append.1 ha with ha | ha
    · exact Nat.lt_succ_of_lt (hlt a ha)
    · simp only [addrs, List.map_cons, List.map_nil, List.mem_singleton] at ha
      omega
  · show ((l0 ++ [hc]) ++ [_]).length ≤ b.next + 1
    simp only [List.length_append, List.length_cons, List.length_nil] at hlen ⊢
    omega

theorem insert_open (b : sbuffer) (d : sensor_data_t) (l : List cell) (h : Inv b l)
    (ho : b.closed = false) :
    ∃ b1, sbuffer_insert_first b d
        = some (.SBUFFER_SUCCESS, b1,
            if l = [] then [cond_t.dataMgrCond, cond_t.strgMgrCond] else []) ∧
      Inv b1 (l ++ [{ addr := b.next, data := d, mark := 0 }]) ∧
      b1.closed = b.closed ∧ b1.dataMgr = b.dataMgr ∧ b1.strgMgr = b.strgMgr ∧
      b1.next = b.next + 1 := by
  rcases List.eq_nil_or_concat l with rfl | ⟨l0, hc, rfl⟩
  on_goal 2 => rw [List.concat_eq_append] at h ⊢
  · exact ⟨_, insert_open_nil b d h ho, Inv_insert_nil b d h, rfl, rfl, rfl, rfl⟩
  · refine ⟨_, ?_, Inv_insert_snoc b d l0 hc h, rfl, rfl, rfl, rfl⟩
    rw [insert_open_snoc b d l0 hc h ho]
    simp

theorem walk_linked (mem : Nat → Option sbuffer_node_t) (l : List cell) :
    ∀ fuel, linked mem l → l.length ≤ fuel → walk mem fuel (first_addr l) = to_nodes l := by
  induction l with
  | nil =>
    intro fuel _ _
    cases fuel <;> rfl
  | cons c cs ih =>
    intro fuel hl hf
    obtain ⟨f, rfl⟩ : ∃ f, fuel = f + 1 := ⟨fuel - 1, by simp only [List.length_cons] at hf; omega⟩
    show walk mem (f + 1) (some c.addr) = _
    simp only [walk, hl.1, to_nodes]
    rw [ih f hl.2 (by simp only [List.length_cons] at hf; omega)]

theorem chain_eq (b : sbuffer) (l : List cell) (h : Inv b l) : chain b = to_nodes l := by
  obtain ⟨ht, -, hl, -, -, -, hlen⟩ := h
  unfold chain
  rw [ht]
  exact walk_linked b.mem l b.next hl hlen

theorem to_nodes_data (l : List cell) :
    (to_nodes l).map (fun n => n.data) = l.map fun c => c.data := by
  induction l with
  | nil => rfl
  | cons c cs ih => simp [to_nodes, ih]

theorem to_nodes_length (l : List cell) : (to_nodes l).length = l.length := by
  induction l with
  | nil => rfl
  | cons c cs ih => simp [to_nodes, ih]

theorem to_nodes_pending (self : Nat) (l : List cell) :
    ((to_nodes l).filter fun n => decide (n.readBy ≠ self)).map (fun n => n.data)
      = (l.filter fun c => decide (c.mark ≠ self)).map fun c => c.data := by
  induction l with
  | nil => rfl
  | cons c cs ih =>
    simp only [ne_eq, decide_not] at ih ⊢
    by_cases e : c.mark = self <;> simp [to_nodes, List.filter_cons, e, ih]

theorem pending_eq (self : Nat) (b : sbuffer) (l : List cell) (h : Inv b l) :
    pending self b = (l.filter fun c => decide (c.mark ≠ self)).map fun c => c.data := by
  unfold pending
  rw [chain_eq b l h]
  exact to_nodes_pending self l

@[simp] theorem inserted_append (e1 e2 : List event) :
    inserted (e1 ++ e2) = inserted e1 ++ inserted e2 := by
  simp [inserted, List.filterMap_append]

@[simp] theorem delivered_append (s : Nat) (e1 e2 : List event) :
    delivered s (e1 ++ e2) = delivered s e1 ++ delivered s e2 := by
  simp [delivered, List.filterMap_append]

theorem inserted_cons (e : event) (es : List event) :
    inserted (e :: es) = inserted [e] ++ inserted es := inserted_append [e] es

theorem delivered_cons (s : Nat) (e : event) (es : List event) :
    delivered s (e :: es) = delivered s [e] ++ delivered s es := delivered_append s [e] es

@[simp] theorem inserted_one_inserted (d : sensor_data_t) : inserted [.inserted d] = [d] := rfl
@[simp] theorem inserted_one_failed : inserted [.insert_failed] = [] := rfl
@[simp] theorem inserted_one_closed : inserted [.closed] = [] := rfl
@[simp] theorem inserted_one_delivered (s : Nat) (d : sensor_data_t) :
    inserted [.delivered s d] = [] := rfl
@[simp] theorem inserted_one_no_data (s : Nat) : inserted [.no_data s] = [] := rfl
@[simp] theorem inserted_one_blocked (s : Nat) : inserted [.blocked s] = [] := rfl
@[simp] theorem inserted_one_crashed : inserted [.crashed] = [] := rfl
@[simp] theorem delivered_one_inserted (x : Nat) (d : sensor_data_t) :
    delivered x [.inserted d] = [] := rfl
@[simp] theorem delivered_one_failed (x : Nat) : delivered x [.insert_failed] = [] := rfl
@[simp] theorem delivered_one_closed (x : Nat) : delivered x [.closed] = [] := rfl
@[simp] theorem delivered_one_no_data (x s : Nat) : delivered x [.no_data s] = [] := rfl
@[simp] theorem delivered_one_blocked (x s : Nat) : delivered x [.blocked s] = [] := rfl
@[simp] theorem delivered_one_crashed (x : Nat) : delivered x [.crashed] = [] := rfl
theorem delivered_one_same (s : Nat) (d : sensor_data_t) :
    delivered s [.delivered s d] = [d] := by
  simp [delivered]
theorem delivered_one_other (x s : Nat) (d : sensor_data_t) (h : s ≠ x) :
    delivered x [.delivered s d] = [] := by
  simp [delivered, h]

theorem sentinel_delivered (A B x y : Nat) (b b1 : sbuffer) (evs : List event) (s : Nat)
    (d : sensor_data_t) (hc : b1.closed = b.closed) (h : sentinel_ok A B x y b evs)
    (hno : delivered s evs ≠ inserted evs) :
    sentinel_ok A B x y b1 (evs ++ [.delivered s d]) := by
  intro s0 hs0 hr0 hm
  simp only [List.mem_append, List.mem_singleton, reduceCtorEq, or_false] at hm
  obtain ⟨c, e⟩ := h s0 hs0 hr0 hm
  refine ⟨hc ▸ c, ?_⟩
  by_cases hss : s = s0
  · subst hss; exact absurd e hno
  · simp [delivered_one_other _ _ _ hss, e]

theorem sentinel_blocked (A B x y : Nat) (b : sbuffer) (evs : List event) (s : Nat)
    (h : sentinel_ok A B x y b evs) : sentinel_ok A B x y b (evs ++ [.blocked s]) := by
  intro s0 hs0 hr0 hm
  simp only [List.mem_append, List.mem_singleton, reduceCtorEq, or_false] at hm
  obtain ⟨c, e⟩ := h s0 hs0 hr0 hm
  exact ⟨c, by simp [e]⟩

theorem sentinel_crashed (A B x y : Nat) (b : sbuffer) (evs : List event)
    (h : sentinel_ok A B x y b evs) : sentinel_ok A B x y b (evs ++ [.crashed]) := by
  intro s0 hs0 hr0 hm
  simp only [List.mem_append, List.mem_singleton, reduceCtorEq, or_false] at hm
  obtain ⟨c, e⟩ := h s0 hs0 hr0 hm
  exact ⟨c, by simp [e]⟩

theorem sentinel_no_data (A B x y : Nat) (b : sbuffer) (evs : List event) (s : Nat)
    (h : sentinel_ok A B x y b evs) (hc : b.closed = true) (he : delivered s evs = inserted evs) :
    sentinel_ok A B x y b (evs ++ [.no_data s]) := by
  intro s0 hs0 hr0 hm
  simp only [List.mem_append, List.mem_singleton, event.no_data.injEq] at hm
  rcases hm with hm | rfl
  · obtain ⟨c, e⟩ := h s0 hs0 hr0 hm
    exact ⟨c, by simp [e]⟩
  · exact ⟨hc, by simp [he]⟩

theorem roles_cases (A B o o1 s : Nat) (hA : A ≠ 0) (hB : B ≠ 0) (hAB : A ≠ B)
    (hoo : (o = A ∧ o1 = B) ∨ (o = B ∧ o1 = A)) (hs : s = A ∨ s = B) :
    o ≠ 0 ∧ o1 ≠ 0 ∧ o ≠ o1 ∧ (s = o ∨ s = o1) := by
  rcases hoo with ⟨rfl, rfl⟩ | ⟨rfl, rfl⟩
  · exact ⟨hA, hB, hAB, hs⟩
  · exact ⟨hB, hA, Ne.symm hAB, hs.symm⟩

theorem TI_remove (A B x y : Nat) (hA : A ≠ 0) (hB : B ≠ 0) (hAB : A ≠ B) (b : sbuffer)
    (evs : List event) (h : TI A B x y b evs) (s : Nat) (hs : s = A ∨ s = B)
    (hne : b.head ≠ none) :
    TI A B x y (remove_from_tail b.next s b).2.1
      (evs ++ [pull_event s (remove_from_tail b.next s b).1]) := by
  obtain ⟨hdm, hsm, P, U, o, o1, hoo, hinv, hP, hU, hins, hdel, hnd⟩ := h
  obtain ⟨ho0, ho10, hoo1, hso⟩ := roles_cases A B o o1 s hA hB hAB hoo hs
  have hlen := hinv.2.2.2.2.2.2
  cases P with
  | nil =>
    cases U with
    | nil => exact absurd (Inv_nil_head b hinv).1 hne
    | cons u U =>
      simp only [List.nil_append, List.map_nil, List.append_nil] at hinv hins hdel
      have hu : u.mark = 0 := hU u (by simp)
      rw [pull_unread b.next s b u U hinv hu]
      simp only [pull_event]
      have hinv1 := Inv_mark b [] u U s hinv
      have hno : delivered s evs ≠ inserted evs := by
        intro e
        have h1 := congrArg List.length hins
        have h2 := congrArg List.length hdel
        have h3 := congrArg List.length e
        rcases hso with rfl | rfl <;>
          simp only [List.length_append, List.map_cons, List.length_cons] at h1 h2 h3 <;> omega
      refine ⟨hdm, hsm, [{ addr := u.addr, data := u.data, mark := s }], U, s,
        if s = o then o1 else o, ?_, hinv1, ?_, ?_, ?_, ?_,
        sentinel_delivered A B x y b _ evs s u.data rfl hnd hno⟩
      · rcases hso with rfl | rfl
        · simpa using hoo
        · simp only [Ne.symm hoo1, if_false]
          rcases hoo with ⟨h1, h2⟩ | ⟨h1, h2⟩
          · exact Or.inr ⟨h2, h1⟩
          · exact Or.inl ⟨h2, h1⟩
      · intro x hx
        simp only [List.mem_singleton] at hx
        subst hx; rfl
      · intro x hx
        exact hU x (List.mem_cons_of_mem _ hx)
      · rcases hso with rfl | rfl
        · simp [delivered_one_other _ _ _ hoo1, hins]
        · simp [delivered_one_other _ _ _ (Ne.symm hoo1), Ne.symm hoo1, hins, hdel]
      · rcases hso with rfl | rfl
        · simp [delivered_one_other _ _ _ hoo1, delivered_one_same, hdel]
        · simp [delivered_one_other _ _ _ (Ne.symm hoo1), Ne.symm hoo1, delivered_one_same,
            hdel]
  | cons c P =>
    have hc : c.mark = o := hP c (by simp)
    rcases hso with rfl | rfl
    · -- the caller is the thread ahead
      cases U with
      | nil =>
        simp only [List.append_nil] at hinv hins
        have hf : P.length + 1 ≤ b.next := by simpa using hlen
        have hr := pull_all_read b.next s b c P hinv hP ho0 hf
        by_cases hcl : b.closed = true
        · simp only [hcl, if_true] at hr
          rw [hr]
          simp only [pull_event]
          refine ⟨hdm, hsm, c :: P, [], s, o1, hoo, by simpa using hinv, hP, hU,
            by simpa using hins, by simpa using hdel, ?_⟩
          exact sentinel_no_data A B x y b evs s hnd hcl (by rw [hdel, hins])
        · have hw : ∃ w sg, remove_from_tail b.next s b = (.wait_retry w, b, sg) := by
            have hcl1 : b.closed = false := by simpa using hcl
            rw [hr, hcl1]
            simp only [Bool.false_eq_true, if_false]
            split_ifs <;> exact ⟨_, _, rfl⟩
          obtain ⟨w, sg, e⟩ := hw
          rw [e]
          simp only [pull_event]
          exact ⟨hdm, hsm, c :: P, [], s, o1, hoo, by simpa using hinv, hP, hU,
            by simpa using hins, by simpa using hdel, sentinel_blocked A B x y b evs s hnd⟩
      | cons u U =>
        have hu : u.mark = 0 := hU u (by simp)
        have hf : P.length + 1 ≤ b.next := by
          simp only [List.length_append, List.length_cons] at hlen; omega
        rw [pull_next b.next s b c P u U hinv hP ho0 hu hf]
        simp only [pull_event]
        have hinv1 := Inv_mark b (c :: P) u U s hinv
        have hno : delivered s evs ≠ inserted evs := by
          intro e
          have h1 := congrArg List.length hins
          have h2 := congrArg List.length hdel
          have h3 := congrArg List.length e
          simp only [List.length_append, List.map_cons, List.length_cons, List.map_append,
            List.length_map] at h1 h2 h3
          omega
        refine ⟨hdm, hsm, (c :: P) ++ [{ addr := u.addr, data := u.data, mark := s }], U, s, o1,
          hoo, by simpa using hinv1, ?_, ?_, ?_, ?_,
          sentinel_delivered A B x y b _ evs s u.data rfl hnd hno⟩
        · intro x hx
          rcases List.mem_append.1 hx with hx | hx
          · exact hP x hx
          · simp only [List.mem_singleton] at hx
            subst hx; rfl
        · intro x hx
          exact hU x (List.mem_cons_of_mem _ hx)
        · simp [delivered_one_other _ _ _ hoo1, hins]
        · simp [delivered_one_same, delivered_one_other _ _ _ hoo1, hdel]
    · -- the caller is the thread behind
      have hcs : c.mark ≠ s := by rw [hc]; exact hoo1
      have hc0 : c.mark ≠ 0 := by rw [hc]; exact ho0
      rw [pull_other b.next s b c (P ++ U) hinv hc0 hcs]
      simp only [pull_event]
      have hinv1 := Inv_unlink b c (P ++ U) hinv
      have hno : delivered s evs ≠ inserted evs := by
        intro e
        have h1 := congrArg List.length hins
        have h3 := congrArg List.length e
        simp only [List.length_append, List.map_cons, List.length_cons, List.map_append,
          List.length_map, List.cons_append] at h1 h3
        omega
      refine ⟨hdm, hsm, P, U, o, s, hoo, hinv1, ?_, hU, ?_, ?_,
        sentinel_delivered A B x y b _ evs s c.data rfl hnd hno⟩
      · intro x hx
        exact hP x (List.mem_cons_of_mem _ hx)
      · simp [delivered_one_same, hins]
      · simp [delivered_one_same, delivered_one_other _ _ _ (Ne.symm hoo1), hdel]

theorem sentinel_quiet (A B x y : Nat) (b b1 : sbuffer) (evs : List event) (e : event)
    (hc : b.closed = true → b1.closed = true) (h : sentinel_ok A B x y b evs)
    (h1 : ∀ s, event.no_data s ≠ e) (h2 : inserted [e] = []) (h3 : ∀ s, delivered s [e] = []) :
    sentinel_ok A B x y b1 (evs ++ [e]) := by
  intro s0 hs0 hr0 hm
  simp only [List.mem_append, List.mem_singleton, h1, or_false] at hm
  obtain ⟨c, e1⟩ := h s0 hs0 hr0 hm
  exact ⟨hc c, by simp [e1, h2, h3]⟩

theorem Inv_create : Inv sbuffer_create [] := by
  refine ⟨rfl, rfl, trivial, by simp [addrs], ?_, ?_, by simp⟩
  · intro a n h
    simp [sbuffer_create] at h
  · intro a h
    simp [addrs] at h

theorem TI_init (A B x y : Nat) : TI A B x y (mgrs sbuffer_create x y) [] := by
  refine ⟨rfl, rfl, [], [], A, B, Or.inl ⟨rfl, rfl⟩, Inv_create, ?_, ?_, rfl, rfl, ?_⟩
  · intro c hc; cases hc
  · intro c hc; cases hc
  · intro s _ _ hm; cases hm

theorem TI_empty_facts (A B x y : Nat) (b : sbuffer) (evs : List event) (h : TI A B x y b evs)
    (hn : b.head = none) (s : Nat) (hs : s = A ∨ s = B) :
    delivered s evs = inserted evs := by
  obtain ⟨-, -, P, U, o, o1, hoo, hinv, -, -, hins, hdel, -⟩ := h
  have hl := Inv_head_none b (P ++ U) hinv hn
  obtain ⟨rfl, rfl⟩ := List.append_eq_nil.1 hl
  simp only [List.append_nil, List.map_nil] at hins hdel
  rcases hoo with ⟨rfl, rfl⟩ | ⟨rfl, rfl⟩ <;> rcases hs with rfl | rfl <;>
    simp [hins, hdel]

theorem TI_wait_loop_empty (A B x y : Nat) (b : sbuffer) (evs : List event) (h : TI A B x y b evs)
    (hn : b.head = none) (ho : b.closed = false) (s : Nat) :
    (∃ w, wait_loop b.next s b = (.wait_loop w, b, [])) ∨
    (wait_loop b.next s b = (.no_data, b, []) ∧ ¬ (s = x ∨ s = y)) := by
  obtain ⟨hdm, hsm, -⟩ := h
  unfold wait_loop
  simp only [hn, ho, and_self, if_true, hdm, hsm]
  by_cases e1 : s = x
  · exact Or.inl ⟨.dataMgrCond, by simp [e1]⟩
  · by_cases e2 : s = y
    · exact Or.inl ⟨.strgMgrCond, by rw [if_neg e1, if_pos e2]⟩
    · exact Or.inr ⟨by rw [if_neg e1, if_neg e2], by simp [e1, e2]⟩

theorem sentinel_unregistered (A B x y : Nat) (b : sbuffer) (evs : List event) (s : Nat)
    (h : sentinel_ok A B x y b evs) (hu : ¬ (s = x ∨ s = y)) :
    sentinel_ok A B x y b (evs ++ [.no_data s]) := by
  intro s0 hs0 hr0 hm
  simp only [List.mem_append, List.mem_singleton, event.no_data.injEq] at hm
  rcases hm with hm | rfl
  · obtain ⟨c, e⟩ := h s0 hs0 hr0 hm
    exact ⟨c, by simp [e]⟩
  · exact absurd hr0 hu

theorem TI_sentinel (A B x y : Nat) (b : sbuffer) (evs : List event) (h : TI A B x y b evs) :
    sentinel_ok A B x y b evs := by
  obtain ⟨-, -, P, U, o, o1, -, -, -, -, -, -, hnd⟩ := h
  exact hnd

theorem TI_same_state (A B x y : Nat) (b : sbuffer) (evs : List event) (e : event)
    (h : TI A B x y b evs) (hs : sentinel_ok A B x y b (evs ++ [e])) (h2 : inserted [e] = [])
    (h3 : ∀ s, delivered s [e] = []) : TI A B x y b (evs ++ [e]) := by
  obtain ⟨hdm, hsm, P, U, o, o1, hoo, hinv, hP, hU, hins, hdel, -⟩ := h
  exact ⟨hdm, hsm, P, U, o, o1, hoo, hinv, hP, hU, by simp [h2, h3, hins],
    by simp [h3, hdel], hs⟩

theorem TI_pull (A B x y : Nat) (hA : A ≠ 0) (hB : B ≠ 0) (hAB : A ≠ B) (b : sbuffer)
    (evs : List event) (h : TI A B x y b evs) (s : Nat) (hs : s = A ∨ s = B) :
    TI A B x y (sbuffer_remove_last b.next s b).2.1
      (evs ++ [pull_event s (sbuffer_remove_last b.next s b).1]) := by
  by_cases hn : b.head = none
  · by_cases hc : b.closed = true
    · have e : sbuffer_remove_last b.next s b = (.no_data, b, []) := by
        simp [sbuffer_remove_last, hn, hc]
      rw [e]
      simp only [pull_event]
      exact TI_same_state A B x y b evs _ h
        (sentinel_no_data A B x y b evs s (TI_sentinel A B x y b evs h) hc
          (TI_empty_facts A B x y b evs h hn s hs)) rfl (fun _ => rfl)
    · have hc1 : b.closed = false := by simpa using hc
      have e0 : sbuffer_remove_last b.next s b = wait_loop b.next s b := by
        simp [sbuffer_remove_last, hn, hc1]
      rw [e0]
      rcases TI_wait_loop_empty A B x y b evs h hn hc1 s with ⟨w, hw⟩ | ⟨hw, hu⟩
      · rw [hw]
        simp only [pull_event]
        exact TI_same_state A B x y b evs _ h
          (sentinel_blocked A B x y b evs s (TI_sentinel A B x y b evs h)) rfl (fun _ => rfl)
      · rw [hw]
        simp only [pull_event]
        exact TI_same_state A B x y b evs _ h
          (sentinel_unregistered A B x y b evs s (TI_sentinel A B x y b evs h) hu) rfl
          (fun _ => rfl)
  · have e : sbuffer_remove_last b.next s b = remove_from_tail b.next s b := by
      simp [sbuffer_remove_last, hn]
    rw [e]
    exact TI_remove A B x y hA hB hAB b evs h s hs hn

theorem TI_wake (A B x y : Nat) (hA : A ≠ 0) (hB : B ≠ 0) (hAB : A ≠ B) (b : sbuffer)
    (evs : List event) (h : TI A B x y b evs) (s : Nat) (hs : s = A ∨ s = B) :
    TI A B x y (sbuffer_remove_last_wake b.next s b).2.1
      (evs ++ [pull_event s (sbuffer_remove_last_wake b.next s b).1]) := by
  unfold sbuffer_remove_last_wake
  by_cases hn : b.head = none
  · by_cases hc : b.closed = true
    · have e : wait_loop b.next s b = (.abort, b, []) := by
        simp [wait_loop, remove_from_tail, hn, hc]
      rw [e]
      simp only [pull_event]
      exact TI_same_state A B x y b evs _ h
        (sentinel_crashed A B x y b evs (TI_sentinel A B x y b evs h)) rfl (fun _ => rfl)
    · have hc1 : b.closed = false := by simpa using hc
      rcases TI_wait_loop_empty A B x y b evs h hn hc1 s with ⟨w, hw⟩ | ⟨hw, hu⟩
      · rw [hw]
        simp only [pull_event]
        exact TI_same_state A B x y b evs _ h
          (sentinel_blocked A B x y b evs s (TI_sentinel A B x y b evs h)) rfl (fun _ => rfl)
      · rw [hw]
        simp only [pull_event]
        exact TI_same_state A B x y b evs _ h
          (sentinel_unregistered A B x y b evs s (TI_sentinel A B x y b evs h) hu) rfl
          (fun _ => rfl)
  · have e : wait_loop b.next s b = remove_from_tail b.next s b := by
      simp [wait_loop, hn]
    rw [e]
    exact TI_remove A B x y hA hB hAB b evs h s hs hn

theorem TI_close (A B x y : Nat) (b : sbuffer) (evs : List event) (h : TI A B x y b evs) :
    TI A B x y (sbuffer_close b).1 (evs ++ [.closed]) := by
  obtain ⟨hdm, hsm, P, U, o, o1, hoo, hinv, hP, hU, hins, hdel, hnd⟩ := h
  refine ⟨hdm, hsm, P, U, o, o1, hoo, hinv, hP, hU, by simp [hins], by simp [hdel], ?_⟩
  exact sentinel_quiet A B x y b _ evs _ (fun _ => rfl) hnd (fun s => by simp) rfl (fun _ => rfl)

theorem TI_insert (A B x y : Nat) (b : sbuffer) (evs : List event) (h : TI A B x y b evs)
    (d : sensor_data_t) :
    TI A B x y (step b (.insert d)).1 (evs ++ [(step b (.insert d)).2]) := by
  by_cases hc : b.closed = true
  · have e : step b (.insert d) = (b, .insert_failed) := by
      simp [step, insert_closed b d hc]
    rw [e]
    exact TI_same_state A B x y b evs _ h
      (sentinel_quiet A B x y b b evs _ id (TI_sentinel A B x y b evs h) (fun s => by simp) rfl
        (fun _ => rfl)) rfl (fun _ => rfl)
  · have hc1 : b.closed = false := by simpa using hc
    obtain ⟨hdm, hsm, P, U, o, o1, hoo, hinv, hP, hU, hins, hdel, hnd⟩ := h
    obtain ⟨b1, hb1, hinv1, hcl, hd1, hs1, -⟩ := insert_open b d (P ++ U) hinv hc1
    have e : step b (.insert d) = (b1, .inserted d) := by
      simp [step, hb1]
    rw [e]
    refine ⟨hd1.trans hdm, hs1.trans hsm, P, U ++ [{ addr := b.next, data := d, mark := 0 }],
      o, o1, hoo, by simpa using hinv1, hP, ?_, by simp [hins], by simp [hdel], ?_⟩
    · intro x hx
      rcases List.mem_append.1 hx with hx | hx
      · exact hU x hx
      · simp only [List.mem_singleton] at hx
        subst hx; rfl
    · intro s0 hs0 hr0 hm
      simp only [List.mem_append, List.mem_singleton, reduceCtorEq, or_false] at hm
      exact absurd (hnd s0 hs0 hr0 hm).1 hc

theorem TI_step (A B x y : Nat) (hA : A ≠ 0) (hB : B ≠ 0) (hAB : A ≠ B) (b : sbuffer)
    (evs : List event) (h : TI A B x y b evs) (o : op) (ho : by_roles A B [o]) :
    TI A B x y (step b o).1 (evs ++ [(step b o).2]) := by
  cases o with
  | insert d => exact TI_insert A B x y b evs h d
  | close => exact TI_close A B x y b evs h
  | pull s =>
    exact TI_pull A B x y hA hB hAB b evs h s (by simpa [by_role] using ho (.pull s) (by simp))
  | wake s =>
    exact TI_wake A B x y hA hB hAB b evs h s (by simpa [by_role] using ho (.wake s) (by simp))

theorem TI_run (A B x y : Nat) (hA : A ≠ 0) (hB : B ≠ 0) (hAB : A ≠ B) (ops : List op) :
    ∀ (b : sbuffer) (evs : List event), TI A B x y b evs → by_roles A B ops →
      TI A B x y (run b ops).1 (evs ++ (run b ops).2) := by
  induction ops with
  | nil =>
    intro b evs h _
    simpa [run] using h
  | cons o os ih =>
    intro b evs h ho
    have h1 := TI_step A B x y hA hB hAB b evs h o (fun x hx => ho x (by
      simp only [List.mem_singleton] at hx; subst hx; simp))
    have h2 := ih (step b o).1 (evs ++ [(step b o).2]) h1
      (fun x hx => ho x (List.mem_cons_of_mem _ hx))
    simpa [run] using h2

theorem pull_cases (A B x y : Nat) (hA : A ≠ 0) (hB : B ≠ 0) (hAB : A ≠ B) (b : sbuffer)
    (evs : List event) (h : TI A B x y b evs) (s s1 : Nat)
    (hs : (s = A ∧ s1 = B) ∨ (s = B ∧ s1 = A)) (hne : b.head ≠ none) (fuel : Nat)
    (hfuel : b.next ≤ fuel) :
    (∃ u U, Inv b (u :: U) ∧ (∀ x ∈ u :: U, x.mark = 0) ∧
        delivered s evs = delivered s1 evs ∧
        inserted evs = delivered s evs ++ ((u :: U).map fun c => c.data) ∧
        remove_from_tail fuel s b
          = (.data u.data,
             { b with mem := store b.mem u.addr
                               (some { prev := first_addr U, data := u.data, readBy := s }) },
             [])) ∨
    (∃ c P U, Inv b (c :: P ++ U) ∧ (∀ x ∈ c :: P, x.mark = s1) ∧ (∀ x ∈ U, x.mark = 0) ∧
        delivered s1 evs = delivered s evs ++ ((c :: P).map fun c => c.data) ∧
        inserted evs = delivered s evs ++ ((c :: P ++ U).map fun c => c.data) ∧
        remove_from_tail fuel s b
          = (.data c.data,
             { b with head := if some c.addr = b.head then none else b.head,
                      tail := first_addr (P ++ U),
                      mem := store b.mem c.addr none },
             [])) ∨
    (∃ c P, Inv b (c :: P) ∧ (∀ x ∈ c :: P, x.mark = s) ∧
        delivered s evs = inserted evs ∧
        inserted evs = delivered s1 evs ++ ((c :: P).map fun c => c.data) ∧
        remove_from_tail fuel s b
          = if b.closed then (.no_data, b, [])
            else if s = b.dataMgr then
              (.wait_retry (some .dataMgrCond), b, [cond_t.strgMgrCond])
            else if s = b.strgMgr then (.wait_retry (some .strgMgrCond), b, [])
            else (.wait_retry none, b, [])) ∨
    (∃ c P u U, Inv b (c :: P ++ u :: U) ∧ (∀ x ∈ c :: P, x.mark = s) ∧
        (∀ x ∈ u :: U, x.mark = 0) ∧
        delivered s evs = delivered s1 evs ++ ((c :: P).map fun c => c.data) ∧
        inserted evs = delivered s1 evs ++ ((c :: P ++ u :: U).map fun c => c.data) ∧
        remove_from_tail fuel s b
          = (.data u.data,
             { b with mem := store b.mem u.addr
                               (some { prev := first_addr U, data := u.data, readBy := s }) },
             [])) := by
  obtain ⟨hdm, hsm, P, U, o, o1, hoo, hinv, hP, hU, hins, hdel, hnd⟩ := h
  have hs0 : s ≠ 0 ∧ s1 ≠ 0 ∧ s ≠ s1 := by
    rcases hs with ⟨rfl, rfl⟩ | ⟨rfl, rfl⟩
    · exact ⟨hA, hB, hAB⟩
    · exact ⟨hB, hA, Ne.symm hAB⟩
  have hcase : (o = s ∧ o1 = s1) ∨ (o = s1 ∧ o1 = s) := by
    rcases hs with ⟨rfl, rfl⟩ | ⟨rfl, rfl⟩
    · exact hoo
    · exact hoo.symm
  have hlen := hinv.2.2.2.2.2.2
  cases P with
  | nil =>
    cases U with
    | nil => exact absurd (Inv_nil_head b hinv).1 hne
    | cons u U =>
      simp only [List.nil_append, List.map_nil, List.append_nil] at hinv hins hdel
      refine Or.inl ⟨u, U, hinv, hU, ?_, ?_, pull_unread fuel s b u U hinv (hU u (by simp))⟩
      · rcases hcase with ⟨rfl, rfl⟩ | ⟨rfl, rfl⟩
        · exact hdel
        · exact hdel.symm
      · rcases hcase with ⟨rfl, rfl⟩ | ⟨rfl, rfl⟩
        · rw [hdel]; exact hins
        · exact hins
  | cons c P =>
    have hc : c.mark = o := hP c (by simp)
    rcases hcase with ⟨rfl, rfl⟩ | ⟨rfl, rfl⟩
    · cases U with
      | nil =>
        simp only [List.append_nil] at hinv hins
        have hf : P.length + 1 ≤ fuel := by
          simp only [List.length_append, List.length_cons, List.length_nil] at hlen; omega
        exact Or.inr (Or.inr (Or.inl ⟨c, P, hinv, hP, by rw [hdel, hins], hins,
          pull_all_read fuel o b c P hinv hP hs0.1 hf⟩))
      | cons u U =>
        have hf : P.length + 1 ≤ fuel := by
          simp only [List.length_append, List.length_cons] at hlen; omega
        exact Or.inr (Or.inr (Or.inr ⟨c, P, u, U, hinv, hP, hU, hdel, hins,
          pull_next fuel o b c P u U hinv hP hs0.1 (hU u (by simp)) hf⟩))
    · have hcs : c.mark ≠ o1 := by rw [hc]; exact Ne.symm hs0.2.2
      have hc0 : c.mark ≠ 0 := by rw [hc]; exact hs0.2.1
      exact Or.inr (Or.inl ⟨c, P, U, hinv, hP, hU, hdel, hins,
        pull_other fuel o1 b c (P ++ U) hinv hc0 hcs⟩)

theorem linked_live (mem : Nat → Option sbuffer_node_t) (l : List cell) (h : linked mem l)
    (a : Nat) (ha : a ∈ addrs l) : (mem a).isSome = true := by
  induction l with
  | nil => cases ha
  | cons c cs ih =>
    rcases List.mem_cons.1 ha with rfl | ha
    · rw [h.1]; rfl
    · exact ih h.2 ha

theorem live_nodes_eq (b : sbuffer) (l : List cell) (h : Inv b l) : live_nodes b = l.length := by
  obtain ⟨-, -, hl, hnd, hlive, hlt, -⟩ := h
  unfold live_nodes
  rw [← addrs_length l]
  apply List.Perm.length_eq
  rw [List.perm_ext_iff_of_nodup ((List.nodup_range _).filter _) hnd]
  intro a
  simp only [List.mem_filter, List.mem_range]
  constructor
  · rintro ⟨-, hs⟩
    obtain ⟨n, hn⟩ := Option.isSome_iff_exists.1 hs
    exact hlive a n hn
  · intro ha
    exact ⟨hlt a ha, linked_live _ _ hl a ha⟩

theorem TI_reach (A B x y : Nat) (hA : A ≠ 0) (hB : B ≠ 0) (hAB : A ≠ B) (ops : List op)
    (hops : by_roles A B ops) : TI A B x y (reach x y ops).1 (reach x y ops).2 := by
  have h := TI_run A B x y hA hB hAB ops (mgrs sbuffer_create x y) [] (TI_init A B x y) hops
  simpa [reach] using h

theorem remove_last_nonempty (fuel s : Nat) (b : sbuffer) (hne : b.head ≠ none) :
    sbuffer_remove_last fuel s b = remove_from_tail fuel s b := by
  simp [sbuffer_remove_last, hne]

theorem remove_last_empty (fuel s : Nat) (b : sbuffer) (hn : b.head = none) :
    sbuffer_remove_last fuel s b
      = if b.closed then (.no_data, b, [])
        else if s = b.dataMgr then (.wait_loop .dataMgrCond, b, [])
        else if s = b.strgMgr then (.wait_loop .strgMgrCond, b, [])
        else (.no_data, b, []) := by
  unfold sbuffer_remove_last wait_loop
  by_cases hc : b.closed = true
  · simp [hn, hc]
  · have hc1 : b.closed = false := by simpa using hc
    simp [hn, hc1]

theorem remove_last_empty_state (fuel s : Nat) (b : sbuffer) (hn : b.head = none) :
    (sbuffer_remove_last fuel s b).2.1 = b ∧ (sbuffer_remove_last fuel s b).2.2 = [] ∧
    ∀ d, (sbuffer_remove_last fuel s b).1 ≠ .data d := by
  rw [remove_last_empty fuel s b hn]
  split_ifs <;> exact ⟨rfl, rfl, fun d hd => by cases hd⟩

theorem all_read_state (s : Nat) (b : sbuffer) :
    (if b.closed then ((pull_result.no_data, b, []) : pull_result × sbuffer × List cond_t)
      else if s = b.dataMgr then
        (.wait_retry (some .dataMgrCond), b, [cond_t.strgMgrCond])
      else if s = b.strgMgr then (.wait_retry (some .strgMgrCond), b, [])
      else (.wait_retry none, b, [])).2.1 = b ∧
    ∀ d, (if b.closed then ((pull_result.no_data, b, []) : pull_result × sbuffer × List cond_t)
      else if s = b.dataMgr then
        (.wait_retry (some .dataMgrCond), b, [cond_t.strgMgrCond])
      else if s = b.strgMgr then (.wait_retry (some .strgMgrCond), b, [])
      else (.wait_retry none, b, [])).1 ≠ .data d := by
  split_ifs <;> exact ⟨rfl, fun d hd => by cases hd⟩

theorem to_nodes_mark (P : List cell) (c : cell) (R : List cell) (m : Nat) :
    (to_nodes (P ++ { addr := c.addr, data := c.data, mark := m } :: R)).map (fun n => n.data)
      = (to_nodes (P ++ c :: R)).map fun n => n.data := by
  rw [to_nodes_data, to_nodes_data]
  simp

theorem pull_reclaims (A B x y : Nat) (hA : A ≠ 0) (hB : B ≠ 0) (hAB : A ≠ B) (b : sbuffer)
    (evs : List event) (h : TI A B x y b evs) (s s1 : Nat)
    (hs : (s = A ∧ s1 = B) ∨ (s = B ∧ s1 = A)) :
    ((delivered s evs).length < (delivered s1 evs).length →
      (∃ d, (sbuffer_remove_last b.next s b).1 = .data d) ∧
      chain (sbuffer_remove_last b.next s b).2.1 = (chain b).tail ∧
      live_nodes (sbuffer_remove_last b.next s b).2.1 + 1 = live_nodes b) ∧
    ((delivered s1 evs).length ≤ (delivered s evs).length →
      (chain (sbuffer_remove_last b.next s b).2.1).map (fun n => n.data)
        = (chain b).map (fun n => n.data) ∧
      live_nodes (sbuffer_remove_last b.next s b).2.1 = live_nodes b) := by
  by_cases hn : b.head = none
  · have hs' : ∀ x, x = s ∨ x = s1 → x = A ∨ x = B := by
      intro x hx
      rcases hs with ⟨rfl, rfl⟩ | ⟨rfl, rfl⟩
      · exact hx
      · exact hx.symm
    have e1 := TI_empty_facts A B x y b evs h hn s (hs' s (Or.inl rfl))
    have e2 := TI_empty_facts A B x y b evs h hn s1 (hs' s1 (Or.inr rfl))
    obtain ⟨hst, -, -⟩ := remove_last_empty_state b.next s b hn
    rw [hst, e1, e2]
    exact ⟨fun hlt => absurd hlt (Nat.lt_irrefl _), fun _ => ⟨rfl, rfl⟩⟩
  · rw [remove_last_nonempty b.next s b hn]
    rcases pull_cases A B x y hA hB hAB b evs h s s1 hs hn b.next (Nat.le_refl _) with
      ⟨u, U, hinv, -, hdel, -, hr⟩ | ⟨c, P, U, hinv, -, -, hdel, -, hr⟩ |
      ⟨c, P, hinv, -, hdel, hins, hr⟩ | ⟨c, P, u, U, hinv, -, -, hdel, -, hr⟩
    · rw [hr, hdel]
      refine ⟨fun hlt => absurd hlt (Nat.lt_irrefl _), fun _ => ?_⟩
      have hinv1 := Inv_mark b [] u U s hinv
      simp only [List.nil_append] at hinv1
      rw [chain_eq _ _ hinv1, chain_eq _ _ hinv, live_nodes_eq _ _ hinv1, live_nodes_eq _ _ hinv]
      exact ⟨to_nodes_mark [] u U s, rfl⟩
    · rw [hr, hdel]
      have hinv1 := Inv_unlink b c (P ++ U) hinv
      refine ⟨fun _ => ⟨⟨c.data, rfl⟩, ?_, ?_⟩, fun hle => ?_⟩
      · rw [chain_eq _ _ hinv1, chain_eq _ _ hinv]
        rfl
      · rw [live_nodes_eq _ _ hinv1, live_nodes_eq _ _ hinv]
        rfl
      · simp only [List.length_append, List.map_cons, List.length_cons] at hle
        omega
    · rw [hr, (all_read_state s b).1, hdel, hins]
      refine ⟨fun hlt => ?_, fun _ => ⟨rfl, rfl⟩⟩
      simp only [List.length_append] at hlt
      omega
    · rw [hr, hdel]
      refine ⟨fun hlt => ?_, fun _ => ?_⟩
      · simp only [List.length_append] at hlt
        omega
      · have hinv1 := Inv_mark b (c :: P) u U s hinv
        rw [chain_eq _ _ hinv1, chain_eq _ _ hinv, live_nodes_eq _ _ hinv1,
          live_nodes_eq _ _ hinv]
        exact ⟨to_nodes_mark (c :: P) u U s, by simp⟩

theorem TI_chain (A B x y : Nat) (hA : A ≠ 0) (hB : B ≠ 0) (hAB : A ≠ B) (b : sbuffer)
    (evs : List event) (h : TI A B x y b evs) :
    (chain b).map (fun n => n.data)
      = (inserted evs).drop (min (delivered A evs).length (delivered B evs).length) ∧
    live_nodes b = (chain b).length ∧
    (delivered A evs = inserted evs → delivered B evs = inserted evs →
      chain b = [] ∧ b.head = none ∧ b.tail = none ∧ live_nodes b = 0) := by
  obtain ⟨-, -, P, U, o, o1, hoo, hinv, -, -, hins, hdel, -⟩ := h
  have hmin : min (delivered A evs).length (delivered B evs).length = (delivered o1 evs).length := by
    have hl := congrArg List.length hdel
    simp only [List.length_append, List.length_map] at hl
    rcases hoo with ⟨rfl, rfl⟩ | ⟨rfl, rfl⟩
    · rw [hl]; omega
    · rw [hl]; omega
  refine ⟨?_, ?_, ?_⟩
  · rw [chain_eq _ _ hinv, to_nodes_data, hmin, hins]
    simp
  · rw [chain_eq _ _ hinv, to_nodes_length, live_nodes_eq _ _ hinv]
  · intro hA1 hB1
    have ho1 : delivered o1 evs = inserted evs := by
      rcases hoo with ⟨rfl, rfl⟩ | ⟨rfl, rfl⟩
      · exact hB1
      · exact hA1
    rw [ho1] at hins
    have hnil : P ++ U = [] := by
      have hl := congrArg List.length hins
      simp only [List.length_append, List.length_map] at hl
      exact List.eq_nil_of_length_eq_zero (by simp only [List.length_append]; omega)
    rw [hnil] at hinv
    obtain ⟨hh, ht⟩ := Inv_nil_head b hinv
    exact ⟨by rw [chain_eq _ _ hinv]; rfl, hh, ht, by rw [live_nodes_eq _ _ hinv]; rfl⟩

theorem filter_mark (s1 m : Nat) (P : List cell) (c : cell) (R : List cell)
    (hc : c.mark ≠ s1) (hm : m ≠ s1) :
    ((P ++ { addr := c.addr, data := c.data, mark := m } :: R).filter
        fun c => decide (c.mark ≠ s1)).map (fun c => c.data)
      = ((P ++ c :: R).filter fun c => decide (c.mark ≠ s1)).map fun c => c.data := by
  simp [List.filter_append, List.filter_cons, hc, hm]

theorem mark_frame (b : sbuffer) (s s1 : Nat) (hss : s ≠ s1) (u : cell) (q : Option Nat)
    (hu : b.mem u.addr = some { prev := q, data := u.data, readBy := u.mark })
    (a : Nat) (n : sbuffer_node_t) (han : b.mem a = some n) (hn : n.readBy ≠ s1) :
    ∃ n1, store b.mem u.addr (some { prev := q, data := u.data, readBy := s }) a = some n1 ∧
      n1.data = n.data ∧ n1.prev = n.prev ∧ n1.readBy ≠ s1 := by
  by_cases e : a = u.addr
  · subst e
    rw [hu] at han
    cases han
    exact ⟨_, store_same _ _ _, rfl, rfl, hss⟩
  · exact ⟨n, by rw [store_other _ _ _ _ e]; exact han, rfl, rfl, hn⟩

theorem remove_frame (A B x y : Nat) (hA : A ≠ 0) (hB : B ≠ 0) (hAB : A ≠ B) (b : sbuffer)
    (evs : List event) (h : TI A B x y b evs) (s s1 : Nat)
    (hs : (s = A ∧ s1 = B) ∨ (s = B ∧ s1 = A)) (hne : b.head ≠ none) (fuel : Nat)
    (hfuel : b.next ≤ fuel) :
    pending s1 (remove_from_tail fuel s b).2.1 = pending s1 b ∧
    ∀ a n, b.mem a = some n → n.readBy ≠ s1 →
      ∃ n1, (remove_from_tail fuel s b).2.1.mem a = some n1 ∧
        n1.data = n.data ∧ n1.prev = n.prev ∧ n1.readBy ≠ s1 := by
  have hs0 : s ≠ 0 ∧ s1 ≠ 0 ∧ s ≠ s1 := by
    rcases hs with ⟨rfl, rfl⟩ | ⟨rfl, rfl⟩
    · exact ⟨hA, hB, hAB⟩
    · exact ⟨hB, hA, Ne.symm hAB⟩
  rcases pull_cases A B x y hA hB hAB b evs h s s1 hs hne fuel hfuel with
    ⟨u, U, hinv, hU, -, -, hr⟩ | ⟨c, P, U, hinv, hP, -, -, -, hr⟩ |
    ⟨c, P, hinv, -, -, -, hr⟩ | ⟨c, P, u, U, hinv, -, hU, -, -, hr⟩
  · rw [hr]
    have hinv1 := Inv_mark b [] u U s hinv
    have hu0 : u.mark = 0 := hU u (by simp)
    refine ⟨?_, fun a n han hn => mark_frame b s s1 hs0.2.2 u _ (Inv_front b u U hinv).2.2 a n han hn⟩
    rw [pending_eq _ _ _ hinv1, pending_eq _ _ _ hinv]
    exact filter_mark s1 s [] u U (by rw [hu0]; exact Ne.symm hs0.2.1) hs0.2.2
  · rw [hr]
    have hinv1 := Inv_unlink b c (P ++ U) hinv
    have hc : c.mark = s1 := hP c (by simp)
    refine ⟨?_, fun a n han hn => ?_⟩
    · rw [pending_eq _ _ _ hinv1, pending_eq _ _ _ hinv]
      simp [List.filter_cons, hc]
    · have hne1 : a ≠ c.addr := by
        rintro rfl
        rw [(Inv_front b c (P ++ U) hinv).2.2] at han
        cases han
        exact hn hc
      exact ⟨n, by show store b.mem c.addr none a = some n; rw [store_other _ _ _ _ hne1]; exact han,
        rfl, rfl, hn⟩
  · rw [hr, (all_read_state s b).1]
    exact ⟨rfl, fun a n han hn => ⟨n, han, rfl, rfl, hn⟩⟩
  · rw [hr]
    have hinv1 := Inv_mark b (c :: P) u U s hinv
    have hu0 : u.mark = 0 := hU u (by simp)
    have hum : b.mem u.addr = some { prev := first_addr U, data := u.data, readBy := u.mark } :=
      (linked_append _ (c :: P) _ hinv.2.2.1).1
    refine ⟨?_, fun a n han hn => mark_frame b s s1 hs0.2.2 u _ hum a n han hn⟩
    rw [pending_eq _ _ _ hinv1, pending_eq _ _ _ hinv]
    exact filter_mark s1 s (c :: P) u U (by rw [hu0]; exact Ne.symm hs0.2.1) hs0.2.2

theorem pull_frame (A B x y : Nat) (hA : A ≠ 0) (hB : B ≠ 0) (hAB : A ≠ B) (b : sbuffer)
    (evs : List event) (h : TI A B x y b evs) (s s1 : Nat)
    (hs : (s = A ∧ s1 = B) ∨ (s = B ∧ s1 = A)) (fuel : Nat) (hfuel : b.next ≤ fuel) :
    pending s1 (sbuffer_remove_last fuel s b).2.1 = pending s1 b ∧
    ∀ a n, b.mem a = some n → n.readBy ≠ s1 →
      ∃ n1, (sbuffer_remove_last fuel s b).2.1.mem a = some n1 ∧
        n1.data = n.data ∧ n1.prev = n.prev ∧ n1.readBy ≠ s1 := by
  by_cases hn : b.head = none
  · rw [(remove_last_empty_state fuel s b hn).1]
    exact ⟨rfl, fun a n han hn => ⟨n, han, rfl, rfl, hn⟩⟩
  · rw [remove_last_nonempty fuel s b hn]
    exact remove_frame A B x y hA hB hAB b evs h s s1 hs hn fuel hfuel

theorem run_replicate_succ (b : sbuffer) (o : op) (k : Nat) :
    (run b (List.replicate (k + 1) o)).1 = (run (step b o).1 (List.replicate k o)).1 := rfl

theorem pulls_frame (A B x y : Nat) (hA : A ≠ 0) (hB : B ≠ 0) (hAB : A ≠ B) (s s1 : Nat)
    (hs : (s = A ∧ s1 = B) ∨ (s = B ∧ s1 = A)) (k : Nat) :
    ∀ (b : sbuffer) (evs : List event), TI A B x y b evs →
      pending s1 (run b (List.replicate k (op.pull s))).1 = pending s1 b ∧
      ∀ a n, b.mem a = some n → n.readBy ≠ s1 →
        ∃ n1, (run b (List.replicate k (op.pull s))).1.mem a = some n1 ∧
          n1.data = n.data ∧ n1.prev = n.prev ∧ n1.readBy ≠ s1 := by
  induction k with
  | zero =>
    intro b evs _
    exact ⟨rfl, fun a n han hn => ⟨n, han, rfl, rfl, hn⟩⟩
  | succ k ih =>
    intro b evs h
    have hrole : by_roles A B [op.pull s] := by
      intro x hx
      simp only [List.mem_singleton] at hx
      subst hx
      rcases hs with ⟨rfl, -⟩ | ⟨rfl, -⟩ <;> simp [by_role]
    have h1 := TI_step A B x y hA hB hAB b evs h (.pull s) hrole
    obtain ⟨hp, hm⟩ := pull_frame A B x y hA hB hAB b evs h s s1 hs b.next (Nat.le_refl _)
    obtain ⟨hp2, hm2⟩ := ih (step b (.pull s)).1 _ h1
    rw [run_replicate_succ]
    refine ⟨hp2.trans hp, fun a n han hn => ?_⟩
    obtain ⟨n1, e1, d1, p1, r1⟩ := hm a n han hn
    obtain ⟨n2, e2, d2, p2, r2⟩ := hm2 a n1 e1 r1
    exact ⟨n2, e2, d2.trans d1, p2.trans p1, r2⟩

theorem TI_inv (A B x y : Nat) (b : sbuffer) (evs : List event) (h : TI A B x y b evs) :
    ∃ l, Inv b l := by
  obtain ⟨-, -, P, U, o, o1, -, hinv, -⟩ := h
  exact ⟨P ++ U, hinv⟩

theorem filter_none (s : Nat) (l : List cell) (h : ∀ x ∈ l, x.mark = s) :
    (l.filter fun c => decide (c.mark ≠ s)) = [] := by
  rw [List.filter_eq_nil_iff]
  intro x hx
  simp [h x hx]

theorem closed_pull (A B x y : Nat) (hA : A ≠ 0) (hB : B ≠ 0) (hAB : A ≠ B) (b : sbuffer)
    (evs : List event) (h : TI A B x y b evs) (hc : b.closed = true) (s s1 : Nat)
    (hs : (s = A ∧ s1 = B) ∨ (s = B ∧ s1 = A)) (fuel : Nat) (hfuel : b.next ≤ fuel) :
    ((sbuffer_remove_last fuel s b).1 = .no_data ∧ pending s b = []) ∨
    (∃ d rest, (sbuffer_remove_last fuel s b).1 = .data d ∧ pending s b = d :: rest) := by
  have hs0 : s ≠ 0 ∧ s1 ≠ 0 ∧ s ≠ s1 := by
    rcases hs with ⟨rfl, rfl⟩ | ⟨rfl, rfl⟩
    · exact ⟨hA, hB, hAB⟩
    · exact ⟨hB, hA, Ne.symm hAB⟩
  by_cases hn : b.head = none
  · left
    obtain ⟨l, hinv⟩ := TI_inv A B x y b evs h
    have hl := Inv_head_none b l hinv hn
    subst hl
    rw [remove_last_empty fuel s b hn, pending_eq _ _ _ hinv]
    simp [hc]
  · rw [remove_last_nonempty fuel s b hn]
    rcases pull_cases A B x y hA hB hAB b evs h s s1 hs hn fuel hfuel with
      ⟨u, U, hinv, hU, -, -, hr⟩ | ⟨c, P, U, hinv, hP, -, -, -, hr⟩ |
      ⟨c, P, hinv, hP, -, -, hr⟩ | ⟨c, P, u, U, hinv, hP, hU, -, -, hr⟩
    · right
      have hu0 : u.mark ≠ s := by rw [hU u (by simp)]; exact Ne.symm hs0.1
      rw [hr, pending_eq _ _ _ hinv]
      exact ⟨u.data, _, rfl, by rw [List.filter_cons_of_pos (by simpa using hu0)]; rfl⟩
    · right
      have hc1 : c.mark ≠ s := by rw [hP c (by simp)]; exact Ne.symm hs0.2.2
      rw [hr, pending_eq _ _ _ hinv]
      exact ⟨c.data, _, rfl, by
        rw [List.cons_append, List.filter_cons_of_pos (by simpa using hc1)]; rfl⟩
    · left
      rw [hr, pending_eq _ _ _ hinv, filter_none s _ hP]
      simp [hc]
    · right
      have hu0 : u.mark ≠ s := by rw [hU u (by simp)]; exact Ne.symm hs0.1
      rw [hr, pending_eq _ _ _ hinv]
      refine ⟨u.data, (U.filter fun c => decide (c.mark ≠ s)).map fun c => c.data, rfl, ?_⟩
      rw [show c :: P ++ u :: U = (c :: P) ++ u :: U from rfl, List.filter_append,
        filter_none s _ hP]
      rw [List.nil_append, List.filter_cons_of_pos (by simpa using hu0)]
      rfl

theorem run_cons (b : sbuffer) (o : op) (os : List op) :
    run b (o :: os) = ((run (step b o).1 os).1, (step b o).2 :: (run (step b o).1 os).2) := rfl

theorem run_append (o1 o2 : List op) :
    ∀ b : sbuffer, run b (o1 ++ o2)
      = ((run (run b o1).1 o2).1, (run b o1).2 ++ (run (run b o1).1 o2).2) := by
  induction o1 with
  | nil => intro b; rfl
  | cons o os ih =>
    intro b
    simp only [List.cons_append, run_cons, ih]

theorem inserts_run (L : List sensor_data_t) :
    ∀ (b : sbuffer) (l : List cell), Inv b l → b.closed = false →
      ∃ U, (run b (L.map op.insert)).2 = L.map event.inserted ∧
        Inv (run b (L.map op.insert)).1 (l ++ U) ∧
        (U.map fun c => c.data) = L ∧ (∀ x ∈ U, x.mark = 0) ∧
        (run b (L.map op.insert)).1.closed = false := by
  induction L with
  | nil =>
    intro b l h ho
    exact ⟨[], rfl, by simpa using h, rfl, fun x hx => absurd hx (List.not_mem_nil x), ho⟩
  | cons d L ih =>
    intro b l h ho
    obtain ⟨b1, hb1, hinv1, hcl, -, -, -⟩ := insert_open b d l h ho
    have e : step b (.insert d) = (b1, .inserted d) := by simp [step, hb1]
    obtain ⟨U, hev, hinv2, hdata, hmark, hcl2⟩ := ih b1 _ hinv1 (hcl.trans ho)
    refine ⟨{ addr := b.next, data := d, mark := 0 } :: U, ?_, ?_, ?_, ?_, ?_⟩
    · simp only [List.map_cons, run_cons, e, hev]
    · simp only [List.map_cons, run_cons, e]
      simpa using hinv2
    · simp [hdata]
    · intro x hx
      rcases List.mem_cons.1 hx with rfl | hx
      · rfl
      · exact hmark x hx
    · simp only [List.map_cons, run_cons, e]
      exact hcl2

theorem ahead_pulls_run (A : Nat) (hA : A ≠ 0) (U : List cell) :
    ∀ (b : sbuffer) (P : List cell), Inv b (P ++ U) → (∀ x ∈ P, x.mark = A) →
      (∀ x ∈ U, x.mark = 0) →
      ∃ U1, (run b (List.replicate U.length (op.pull A))).2
            = U.map (fun c => event.delivered A c.data) ∧
        Inv (run b (List.replicate U.length (op.pull A))).1 (P ++ U1) ∧
        (U1.map fun c => c.data) = (U.map fun c => c.data) ∧ (∀ x ∈ U1, x.mark = A) ∧
        (run b (List.replicate U.length (op.pull A))).1.closed = b.closed := by
  induction U with
  | nil =>
    intro b P h _ _
    exact ⟨[], rfl, h, rfl, fun x hx => absurd hx (List.not_mem_nil x), rfl⟩
  | cons u U ih =>
    intro b P h hP hU
    have hu : u.mark = 0 := hU u (by simp)
    have hstep : step b (.pull A)
        = ({ b with mem := store b.mem u.addr
                             (some { prev := first_addr U, data := u.data, readBy := A }) },
           .delivered A u.data) := by
      have hr : remove_from_tail b.next A b
          = (.data u.data,
             { b with mem := store b.mem u.addr
                               (some { prev := first_addr U, data := u.data, readBy := A }) },
             []) := by
        cases P with
        | nil => exact pull_unread b.next A b u U h hu
        | cons c P =>
          refine pull_next b.next A b c P u U h hP hA hu ?_
          have hlen := h.2.2.2.2.2.2
          simp only [List.cons_append, List.length_cons, List.length_append] at hlen
          omega
      have hne : b.head ≠ none := by
        cases P with
        | nil => exact (Inv_front b u U h).2.1
        | cons c P => exact (Inv_front b c (P ++ u :: U) h).2.1
      simp only [step, remove_last_nonempty b.next A b hne, hr, pull_event]
    have hinv1 := Inv_mark b P u U A h
    have hinv2 :
        Inv { b with mem := store b.mem u.addr
                              (some { prev := first_addr U, data := u.data, readBy := A }) }
          ((P ++ [{ addr := u.addr, data := u.data, mark := A }]) ++ U) := by
      simpa using hinv1
    obtain ⟨U1, hev, hinv3, hdata, hmark, hcl⟩ := ih _ _ hinv2 (by
      intro x hx
      rcases List.mem_append.1 hx with hx | hx
      · exact hP x hx
      · simp only [List.mem_singleton] at hx
        subst hx; rfl) (fun x hx => hU x (List.mem_cons_of_mem _ hx))
    refine ⟨{ addr := u.addr, data := u.data, mark := A } :: U1, ?_, ?_, ?_, ?_, ?_⟩
    · simp only [List.length_cons, List.replicate_succ, run_cons, hstep, hev, List.map_cons]
    · simp only [List.length_cons, List.replicate_succ, run_cons, hstep]
      simpa using hinv3
    · simp [hdata]
    · intro x hx
      rcases List.mem_cons.1 hx with rfl | hx
      · rfl
      · exact hmark x hx
    · simp only [List.length_cons, List.replicate_succ, run_cons, hstep]
      exact hcl

theorem behind_pulls_run (A B : Nat) (hA : A ≠ 0) (hAB : A ≠ B) (P : List cell) :
    ∀ (b : sbuffer), Inv b P → (∀ x ∈ P, x.mark = A) →
      (run b (List.replicate P.length (op.pull B))).2
          = P.map (fun c => event.delivered B c.data) ∧
      Inv (run b (List.replicate P.length (op.pull B))).1 [] ∧
      (run b (List.replicate P.length (op.pull B))).1.closed = b.closed := by
  induction P with
  | nil =>
    intro b h _
    exact ⟨rfl, h, rfl⟩
  | cons c P ih =>
    intro b h hP
    have hc : c.mark = A := hP c (by simp)
    have hr := pull_other b.next B b c P h (by rw [hc]; exact hA) (by rw [hc]; exact hAB)
    have hstep : step b (.pull B)
        = ({ b with head := if some c.addr = b.head then none else b.head,
                    tail := first_addr P,
                    mem := store b.mem c.addr none },
           .delivered B c.data) := by
      simp only [step, remove_last_nonempty b.next B b (Inv_front b c P h).2.1, hr, pull_event]
    obtain ⟨hev, hinv, hcl⟩ := ih _ (Inv_unlink b c P h)
      (fun x hx => hP x (List.mem_cons_of_mem _ hx))
    refine ⟨?_, ?_, ?_⟩
    · simp only [List.length_cons, List.replicate_succ, run_cons, hstep, hev, List.map_cons]
    · simp only [List.length_cons, List.replicate_succ, run_cons, hstep]
      exact hinv
    · simp only [List.length_cons, List.replicate_succ, run_cons, hstep]
      exact hcl

theorem pull_never_crashes (A B x y : Nat) (hA : A ≠ 0) (hB : B ≠ 0) (hAB : A ≠ B)
    (b : sbuffer) (evs : List event) (h : TI A B x y b evs) (s s1 : Nat)
    (hs : (s = A ∧ s1 = B) ∨ (s = B ∧ s1 = A)) (fuel : Nat) (hfuel : b.next ≤ fuel) :
    (∃ d, (sbuffer_remove_last fuel s b).1 = .data d) ∨
    (sbuffer_remove_last fuel s b).1 = .no_data ∨
    (∃ w, (sbuffer_remove_last fuel s b).1 = .wait_loop w) ∨
    (∃ w, (sbuffer_remove_last fuel s b).1 = .wait_retry w) := by
  by_cases hn : b.head = none
  · rw [remove_last_empty fuel s b hn]
    split_ifs
    · exact Or.inr (Or.inl rfl)
    · exact Or.inr (Or.inr (Or.inl ⟨_, rfl⟩))
    · exact Or.inr (Or.inr (Or.inl ⟨_, rfl⟩))
    · exact Or.inr (Or.inl rfl)
  · rw [remove_last_nonempty fuel s b hn]
    rcases pull_cases A B x y hA hB hAB b evs h s s1 hs hn fuel hfuel with
      ⟨u, U, -, -, -, -, hr⟩ | ⟨c, P, U, -, -, -, -, -, hr⟩ |
      ⟨c, P, -, -, -, -, hr⟩ | ⟨c, P, u, U, -, -, -, -, -, hr⟩
    · exact Or.inl ⟨_, by rw [hr]⟩
    · exact Or.inl ⟨_, by rw [hr]⟩
    · rw [hr]
      split_ifs
      · exact Or.inr (Or.inl rfl)
      · exact Or.inr (Or.inr (Or.inr ⟨_, rfl⟩))
      · exact Or.inr (Or.inr (Or.inr ⟨_, rfl⟩))
      · exact Or.inr (Or.inr (Or.inr ⟨_, rfl⟩))
    · exact Or.inl ⟨_, by rw [hr]⟩

theorem to_nodes_marks (l : List cell) :
    (to_nodes l).map (fun n => n.readBy) = l.map fun c => c.mark := by
  induction l with
  | nil => rfl
  | cons c cs ih => simp [to_nodes, ih]

theorem Inv_next_free (b : sbuffer) (l : List cell) (h : Inv b l) : b.mem b.next = none := by
  obtain ⟨-, -, -, -, hlive, hlt, -⟩ := h
  cases hm : b.mem b.next with
  | none => rfl
  | some n => exact absurd (hlt _ (hlive _ n hm)) (Nat.lt_irrefl _)

theorem insert_keeps_nodes (b : sbuffer) (l : List cell) (h : Inv b l) (d : sensor_data_t)
    (b1 : sbuffer) (sg : List cond_t)
    (hb : sbuffer_insert_first b d = some (.SBUFFER_SUCCESS, b1, sg)) (ho : b.closed = false) :
    b1.mem b.next = some { prev := none, data := d, readBy := 0 } ∧
    ∀ a n, b.mem a = some n →
      ∃ n1, b1.mem a = some n1 ∧ n1.data = n.data ∧ n1.readBy = n.readBy := by
  have hfree := Inv_next_free b l h
  rcases List.eq_nil_or_concat l with rfl | ⟨l0, hc, rfl⟩
  · rw [insert_open_nil b d h ho] at hb
    simp only [Option.some.injEq, Prod.mk.injEq, true_and] at hb
    obtain ⟨rfl, -⟩ := hb
    refine ⟨store_same _ _ _, fun a n han => ?_⟩
    have hne : a ≠ b.next := by
      rintro rfl
      rw [hfree] at han
      cases han
    exact ⟨n, by show store b.mem b.next _ a = some n; rw [store_other _ _ _ _ hne]; exact han,
      rfl, rfl⟩
  · rw [List.concat_eq_append] at h
    obtain ⟨-, -, hm, hne⟩ := Inv_last b l0 hc h
    rw [insert_open_snoc b d l0 hc h ho] at hb
    simp only [Option.some.injEq, Prod.mk.injEq, true_and] at hb
    obtain ⟨rfl, -⟩ := hb
    refine ⟨?_, fun a n han => ?_⟩
    · show store (store b.mem b.next _) hc.addr _ b.next = _
      rw [store_other _ _ _ _ (Ne.symm hne), store_same]
    · by_cases e1 : a = hc.addr
      · subst e1
        rw [hm] at han
        cases han
        exact ⟨_, store_same _ _ _, rfl, rfl⟩
      · have e2 : a ≠ b.next := by
          rintro rfl
          rw [hfree] at han
          cases han
        refine ⟨n, ?_, rfl, rfl⟩
        show store (store b.mem b.next _) hc.addr _ a = some n
        rw [store_other _ _ _ _ e1, store_other _ _ _ _ e2]
        exact han

theorem run_one (b : sbuffer) (o : op) : run b [o] = ((step b o).1, [(step b o).2]) := rfl

theorem Inv_mgrs_create (x y : Nat) : Inv (mgrs sbuffer_create x y) [] := Inv_create

theorem Inv_closed (b : sbuffer) (l : List cell) (h : Inv b l) : Inv (sbuffer_close b).1 l := h

theorem final_pull (b : sbuffer) (s : Nat) (h : Inv b []) (hc : b.closed = true) :
    step b (.pull s) = (b, .no_data s) := by
  have hn := (Inv_nil_head b h).1
  simp only [step, remove_last_empty b.next s b hn, hc, if_true, pull_event]

theorem head_eq_tail_iff (b : sbuffer) (l : List cell) (h : Inv b l) :
    b.head = b.tail ↔ l.length ≤ 1 := by
  obtain ⟨ht, hh, -, hnd, -⟩ := h
  rw [ht, hh]
  cases l with
  | nil => simp [addrs]
  | cons c cs =>
    cases cs with
    | nil => simp [addrs]
    | cons d ds =>
      simp only [addrs_cons, List.nodup_cons] at hnd
      have hlast : (c.addr :: d.addr :: addrs ds).getLast? = (d.addr :: addrs ds).getLast? := by
        simp [List.getLast?_cons_cons]
      have hx : (d.addr :: addrs ds).getLast?
          = some ((d.addr :: addrs ds).getLast (by simp)) := List.getLast?_eq_getLast _ _
      have hm : (d.addr :: addrs ds).getLast (by simp) ∈ d.addr :: addrs ds :=
        List.getLast_mem _
      simp only [addrs_cons, hlast, hx, List.head?_cons, Option.some.injEq, List.length_cons]
      constructor
      · intro e
        exact absurd (e ▸ hm) hnd.1
      · intro hle
        omega

theorem destroy_iff (b : sbuffer) (l : List cell) (h : Inv b l) :
    sbuffer_destroy b = some () ↔ l.length ≤ 1 := by
  rw [← head_eq_tail_iff b l h]
  unfold sbuffer_destroy
  by_cases e : b.head = b.tail <;> simp [e]

theorem remove_from_tail_closed (fuel self : Nat) (b : sbuffer) :
    (remove_from_tail fuel self b).2.1.closed = b.closed := by
  unfold remove_from_tail
  repeat' (first | rfl | split | (dsimp only; fail_if_no_progress split))

theorem remove_from_tail_no_data_aux (fuel self : Nat) (b : sbuffer) :
    ∀ r, r = remove_from_tail fuel self b → r.1 = .no_data → r.2.1 = b ∧ r.2.2 = [] := by
  intro r hr h
  unfold remove_from_tail at hr
  repeat' first
    | (subst hr; exact ⟨rfl, rfl⟩)
    | (subst hr; exfalso; simp at h; done)
    | split at hr
    | (dsimp only at hr; fail_if_no_progress split at hr)

theorem remove_from_tail_no_data (fuel self : Nat) (b : sbuffer)
    (h : (remove_from_tail fuel self b).1 = .no_data) :
    (remove_from_tail fuel self b).2.1 = b ∧ (remove_from_tail fuel self b).2.2 = [] :=
  remove_from_tail_no_data_aux fuel self b _ rfl h

theorem isdigit_not_space (c : Char) (h : isdigit c = true) : isspace c = false := by
  simp only [isdigit, Bool.and_eq_true, decide_eq_true_eq] at h
  simp only [isspace, Bool.or_eq_false_iff, decide_eq_false_iff_not, Bool.and_eq_false_iff]
  omega

theorem isdigit_not_sign (c : Char) (h : isdigit c = true) : ¬ (c = '-' ∨ c = '+') := by
  simp only [isdigit, Bool.and_eq_true, decide_eq_true_eq] at h
  rintro (rfl | rfl)
  · exact absurd h.1 (by decide)
  · exact absurd h.1 (by decide)

theorem strtol_accepts (ws sign ds : List Char) (hws : ∀ c ∈ ws, isspace c = true)
    (hsign : sign = [] ∨ sign = ['+'] ∨ sign = ['-']) (hne : ds ≠ [])
    (hds : ∀ c ∈ ds, isdigit c = true) : (strtol (ws ++ sign ++ ds)).2 = [] := by
  have htake : ds.takeWhile isdigit = ds := List.takeWhile_eq_self_iff.2 hds
  have hdrop : ds.dropWhile isdigit = [] := List.dropWhile_eq_nil_iff.2 hds
  obtain ⟨d, ds1, rfl⟩ : ∃ d ds1, ds = d :: ds1 := List.exists_cons_of_ne_nil hne
  have hd : isdigit d = true := hds d (by simp)
  have hdsp : ¬ isspace d = true := by rw [isdigit_not_space d hd]; simp
  have hdsg := isdigit_not_sign d hd
  unfold strtol
  rw [List.append_assoc, List.dropWhile_append_of_pos hws]
  rcases hsign with rfl | rfl | rfl
  · simp only [List.nil_append, List.dropWhile_cons_of_neg hdsp, hdsg, if_false, htake, hdrop]
    simp
  · have hp : ¬ isspace '+' = true := by decide
    simp only [List.singleton_append, List.dropWhile_cons_of_neg hp, htake, hdrop]
    simp [hd, hdrop]
  · have hp : ¬ isspace '-' = true := by decide
    simp only [List.singleton_append, List.dropWhile_cons_of_neg hp, htake, hdrop]
    simp [hd, hdrop]

theorem strtol_rejects (a : List Char) (ha : a ≠ []) (hr : (strtol a).2 = []) :
    port_argument a := by
  unfold strtol at hr
  have hsplit : a = a.takeWhile isspace ++ a.dropWhile isspace :=
    (List.takeWhile_append_dropWhile isspace a).symm
  have hws : ∀ c ∈ a.takeWhile isspace, isspace c = true :=
    fun c hc => List.mem_takeWhile_imp hc
  generalize a.dropWhile isspace = s1 at hr hsplit
  cases s1 with
  | nil => simp at hr; exact absurd hr ha
  | cons c r =>
    by_cases hc : c = '-' ∨ c = '+'
    · simp only [hc, if_true] at hr
      by_cases hds : r.takeWhile isdigit = []
      · simp only [hds, if_true] at hr; exact absurd hr ha
      · simp only [hds, if_false] at hr
        have hall : ∀ x ∈ r, isdigit x = true := List.dropWhile_eq_nil_iff.1 hr
        refine ⟨a.takeWhile isspace, [c], r, by rw [List.append_assoc]; exact hsplit, hws, ?_,
          ?_, hall⟩
        · rcases hc with rfl | rfl
          · exact Or.inr (Or.inr rfl)
          · exact Or.inr (Or.inl rfl)
        · rintro rfl
          exact hds rfl
    · simp only [hc, if_false] at hr
      by_cases hds : (c :: r).takeWhile isdigit = []
      · simp only [hds, if_true] at hr; exact absurd hr ha
      · simp only [hds, if_false] at hr
        have hall : ∀ x ∈ c :: r, isdigit x = true := List.dropWhile_eq_nil_iff.1 hr
        exact ⟨a.takeWhile isspace, [], c :: r, by simpa using hsplit, hws, Or.inl rfl,
          by simp, hall⟩

theorem main_usage_iff (argv : List (List Char)) :
    main argv = .usage (-1) ↔ ¬ ∃ p a, argv = [p, a] ∧ port_argument a := by
  unfold main print_usage
  by_cases hlen : argv.length = 2
  · obtain ⟨p, a, rfl⟩ : ∃ p a, argv = [p, a] := by
      match argv, hlen with
      | [p, a], _ => exact ⟨p, a, rfl⟩
    simp only [List.length_cons, List.length_nil, ne_eq, not_true_eq_false, if_false,
      List.getD_cons_succ, List.getD_cons_zero]
    by_cases hok : a = [] ∨ (strtol a).2 ≠ []
    · simp only [hok, if_true, true_iff]
      rintro ⟨p1, a1, he, ws, sign, ds, rfl, hws, hsign, hne, hds⟩
      simp only [List.cons.injEq, and_true] at he
      obtain ⟨-, rfl⟩ := he
      rcases hok with h0 | h0
      · simp at h0; exact hne h0.2.2
      · exact h0 (strtol_accepts ws sign ds hws hsign hne hds)
    · simp only [hok, if_false, reduceCtorEq, false_iff, not_not]
      simp only [not_or, not_not] at hok
      exact ⟨p, a, rfl, strtol_rejects a hok.1 hok.2⟩
  · simp only [ne_eq, hlen, not_false_eq_true, if_true, true_iff]
    rintro ⟨p, a, rfl, -⟩
    exact hlen rfl

theorem wait_loop_closed (fuel self : Nat) (b : sbuffer) :
    (wait_loop fuel self b).2.1.closed = b.closed := by
  unfold wait_loop
  split_ifs
  · rfl
  · rfl
  · rfl
  · exact remove_from_tail_closed fuel self b

theorem remove_last_closed (fuel self : Nat) (b : sbuffer) :
    (sbuffer_remove_last fuel self b).2.1.closed = b.closed := by
  unfold sbuffer_remove_last
  split_ifs
  · rfl
  · exact wait_loop_closed fuel self b
  · exact remove_from_tail_closed fuel self b

theorem wait_loop_no_data (fuel self : Nat) (b : sbuffer)
    (h : (wait_loop fuel self b).1 = .no_data) :
    (wait_loop fuel self b).2.1 = b ∧ (wait_loop fuel self b).2.2 = [] := by
  unfold wait_loop at h ⊢
  by_cases h1 : b.head = none ∧ b.closed = false
  · simp only [h1, and_self, if_true] at h ⊢
    split_ifs at h ⊢
    exact ⟨rfl, rfl⟩
  · simp only [h1, if_false] at h ⊢
    exact remove_from_tail_no_data fuel self b h

theorem remove_last_no_data (fuel self : Nat) (b : sbuffer)
    (h : (sbuffer_remove_last fuel self b).1 = .no_data) :
    (sbuffer_remove_last fuel self b).2.1 = b ∧ (sbuffer_remove_last fuel self b).2.2 = [] := by
  unfold sbuffer_remove_last at h ⊢
  by_cases h1 : b.head = none
  · by_cases h2 : b.closed = true
    · rw [if_pos h1, if_pos h2]
      exact ⟨rfl, rfl⟩
    · simp only [h1, h2, if_true, if_false] at h ⊢
      exact wait_loop_no_data fuel self b h
  · simp only [h1, if_false] at h ⊢
    exact remove_from_tail_no_data fuel self b h

theorem to_nodes_eq_nil (l : List cell) : to_nodes l = [] ↔ l = [] := by
  cases l <;> simp [to_nodes]

theorem Inv_shape (b : sbuffer) (l : List cell) (h : Inv b l) :
    (b.head = b.tail ↔ (chain b).length ≤ 1) ∧ (b.head = none ↔ b.tail = none) ∧
    (b.head = none ↔ chain b = []) ∧
    (∀ a, b.head = some a → ∃ n, b.mem a = some n ∧ n.prev = none) := by
  have hch := chain_eq b l h
  refine ⟨?_, ?_, ?_, ?_⟩
  · rw [hch, to_nodes_length]
    exact head_eq_tail_iff b l h
  · constructor
    · intro hn
      have hl := Inv_head_none b l h hn
      subst hl
      exact (Inv_nil_head b h).2
    · intro hn
      have ht := h.1
      rw [hn] at ht
      cases l with
      | nil => exact (Inv_nil_head b h).1
      | cons c cs => simp [addrs] at ht
  · rw [hch, to_nodes_eq_nil]
    constructor
    · exact Inv_head_none b l h
    · intro hl
      subst hl
      exact (Inv_nil_head b h).1
  · intro a ha
    rcases List.eq_nil_or_concat l with rfl | ⟨l0, hc, rfl⟩
    · rw [(Inv_nil_head b h).1] at ha
      cases ha
    · rw [List.concat_eq_append] at h
      obtain ⟨hh, -, hm, -⟩ := Inv_last b l0 hc h
      rw [hh] at ha
      cases ha
      exact ⟨_, hm, rfl⟩

theorem scan_run_any (mem : Nat → Option sbuffer_node_t) (self : Nat) (P R : List cell) :
    ∀ (fuel p0 : Nat), linked mem (P ++ R) → (∀ x ∈ P, x.mark = self) →
      (∀ r ∈ R.head?, r.mark ≠ self) →
      (∃ pn, scan mem self fuel p0 (first_addr (P ++ R)) = .found pn (first_addr R)) ∨
      scan mem self fuel p0 (first_addr (P ++ R)) = .out_of_fuel := by
  induction P with
  | nil =>
    intro fuel p0 hl _ hR
    cases R with
    | nil => exact Or.inl ⟨p0, scan_none _ _ _ _⟩
    | cons r R =>
      cases fuel with
      | zero => exact Or.inr rfl
      | succ f =>
        have hr : r.mark ≠ self := hR r (by simp)
        refine Or.inl ⟨p0, ?_⟩
        show scan mem self (f + 1) p0 (some r.addr) = _
        rw [scan_some _ _ _ _ _ _ hl.1]
        simp [hr, first_addr, addrs]
  | cons p P ih =>
    intro fuel p0 hl hP hR
    cases fuel with
    | zero => exact Or.inr rfl
    | succ f =>
      have hp : p.mark = self := hP p (by simp)
      have hstep : scan mem self (f + 1) p0 (first_addr (p :: P ++ R))
          = scan mem self f p.addr (first_addr (P ++ R)) := by
        show scan mem self (f + 1) p0 (some p.addr) = _
        rw [scan_some _ _ _ _ _ _ hl.1]
        simp only [hp, if_true]
        rfl
      rw [hstep]
      exact ih f p.addr hl.2 (fun x hx => hP x (List.mem_cons_of_mem _ hx)) hR

theorem mid_chain_unreachable (A B x y : Nat) (hA : A ≠ 0) (hB : B ≠ 0) (b : sbuffer)
    (evs : List event) (h : TI A B x y b evs) (s fuel : Nat) :
    mid_chain_unlink fuel s b = false := by
  obtain ⟨-, -, P, U, o, o1, hoo, hinv, hP, hU, -, -, -⟩ := h
  have ho0 : o ≠ 0 := by
    rcases hoo with ⟨rfl, -⟩ | ⟨rfl, -⟩
    · exact hA
    · exact hB
  cases P with
  | nil =>
    cases U with
    | nil =>
      unfold mid_chain_unlink
      simp [(Inv_nil_head b hinv).1]
    | cons u U =>
      obtain ⟨ht, hh, hmem⟩ := Inv_front b u U hinv
      unfold mid_chain_unlink
      simp [ht, hh, hmem, hU u (by simp)]
  | cons c P =>
    obtain ⟨ht, hh, hmem⟩ := Inv_front b c (P ++ U) hinv
    have hc : c.mark = o := hP c (by simp)
    by_cases hos : o = s
    · subst hos
      have hl : linked b.mem (P ++ U) := hinv.2.2.1.2
      have hR : ∀ r ∈ U.head?, r.mark ≠ o := by
        intro r hr
        have hrU : r ∈ U := List.mem_of_mem_head? hr
        rw [hU r hrU]
        exact Ne.symm ho0
      unfold mid_chain_unlink
      simp only [hh, if_false, ht, hmem, hc, ho0, ne_eq, not_true_eq_false]
      rcases scan_run_any b.mem o P U fuel c.addr hl
        (fun x hx => hP x (List.mem_cons_of_mem _ hx)) hR with ⟨pn, hpn⟩ | hof
      · rw [hpn]
        cases U with
        | nil => rfl
        | cons u U =>
          have hum : b.mem u.addr
              = some { prev := first_addr U, data := u.data, readBy := u.mark } :=
            (linked_append _ _ _ hl).1
          show (match b.mem u.addr with
            | none => false
            | some rn => decide (rn.readBy ≠ 0)) = false
          rw [hum]
          simp [hU u (by simp)]
      · rw [hof]
    · unfold mid_chain_unlink
      simp [hh, ht, hmem, hc, ho0, hos]

theorem TI_marks (A B x y : Nat) (b : sbuffer) (evs : List event) (h : TI A B x y b evs) :
    ∃ o k, (o = A ∨ o = B) ∧ k ≤ (chain b).length ∧
      (chain b).map (fun n => n.readBy)
        = List.replicate k o ++ List.replicate ((chain b).length - k) 0 := by
  obtain ⟨-, -, P, U, o, o1, hoo, hinv, hP, hU, -, -, -⟩ := h
  refine ⟨o, P.length, ?_, ?_, ?_⟩
  · rcases hoo with ⟨rfl, -⟩ | ⟨rfl, -⟩
    · exact Or.inl rfl
    · exact Or.inr rfl
  · rw [chain_eq b _ hinv, to_nodes_length]
    simp
  · rw [chain_eq b _ hinv, to_nodes_length, to_nodes_marks, List.map_append]
    have h1 : P.map (fun c => c.mark) = List.replicate P.length o := by
      rw [List.eq_replicate_iff]
      exact ⟨by simp, fun m hm => by
        obtain ⟨c, hc, rfl⟩ := List.mem_map.1 hm
        exact hP c hc⟩
    have h2 : U.map (fun c => c.mark) = List.replicate U.length 0 := by
      rw [List.eq_replicate_iff]
      exact ⟨by simp, fun m hm => by
        obtain ⟨c, hc, rfl⟩ := List.mem_map.1 hm
        exact hU c hc⟩
    rw [h1, h2]
    simp

theorem insert_signals (b : sbuffer) (d : sensor_data_t)
    (r : sbuffer_status × sbuffer × List cond_t) (h : sbuffer_insert_first b d = some r) :
    (r.1 = .SBUFFER_SUCCESS ↔ b.closed = false) ∧
    (r.2.2 = [cond_t.dataMgrCond, cond_t.strgMgrCond] ↔ (b.closed = false ∧ b.head = none)) ∧
    (r.2.2 = [] ↔ ¬ (b.closed = false ∧ b.head = none)) := by
  unfold sbuffer_insert_first at h
  by_cases hc : b.closed = true
  · simp only [sbuffer_is_closed, hc, if_true, Option.some.injEq] at h
    subst h
    simp [hc]
  · have ho : b.closed = false := by simpa using hc
    simp only [sbuffer_is_closed, ho, Bool.false_eq_true, if_false, create_node] at h
    cases hh : b.head with
    | none =>
      simp only [hh] at h
      simp only [Option.some.injEq] at h
      subst h
      simp [ho]
    | some a =>
      simp only [hh] at h
      cases hm : store b.mem b.next (some { prev := none, data := d, readBy := 0 }) a with
      | none => simp [hm] at h
      | some hn =>
        simp only [hm, Option.some.injEq] at h
        subst h
        simp [ho]

theorem mid_chain_unlink_spec (fuel self : Nat) (b : sbuffer)
    (h : mid_chain_unlink fuel self b = true) :
    ∃ t tn pn r rn, b.head ≠ none ∧ b.tail = some t ∧ b.mem t = some tn ∧ tn.readBy ≠ 0 ∧
      tn.readBy = self ∧ scan b.mem self fuel t tn.prev = .found pn (some r) ∧
      b.mem r = some rn ∧ rn.readBy ≠ 0 ∧
      remove_from_tail fuel self b
        = match b.mem pn with
          | none => (.fault, b, [])
          | some p =>
            (.data rn.data,
             { b with head := if some r = b.head then some pn else b.head,
                      mem := store (store b.mem pn (some { p with prev := rn.prev })) r none },
             []) := by
  unfold mid_chain_unlink at h
  by_cases hh : b.head = none
  · simp [hh] at h
  · rw [if_neg hh] at h
    cases ht : b.tail with
    | none => simp [ht] at h
    | some t =>
      simp only [ht] at h
      cases hm : b.mem t with
      | none => simp [hm] at h
      | some tn =>
        simp only [hm] at h
        by_cases h0 : tn.readBy = 0
        · simp [h0] at h
        · rw [if_neg h0] at h
          by_cases hs : tn.readBy ≠ self
          · simp [hs] at h
          · rw [if_neg hs] at h
            cases hsc : scan b.mem self fuel t tn.prev with
            | fault => simp [hsc] at h
            | out_of_fuel => simp [hsc] at h
            | found pn rr =>
              cases rr with
              | none => simp [hsc] at h
              | some r =>
                simp only [hsc] at h
                cases hr : b.mem r with
                | none => simp [hr] at h
                | some rn =>
                  simp only [hr, decide_eq_true_eq] at h
                  refine ⟨t, tn, pn, r, rn, hh, rfl, hm, h0, not_not.1 hs, hsc, hr, h, ?_⟩
                  unfold remove_from_tail
                  simp only [hh, if_false, ht, hm, h0, hs, hsc, hr, h]
                  by_cases he : some r = b.head
                  · simp only [he, if_true]
                  · simp only [he, if_false]
                    cases hp : b.mem pn <;> simp [hp, ← ht]

theorem step_closed (b : sbuffer) (o : op) (hc : b.closed = true) :
    (step b o).1.closed = true := by
  cases o with
  | insert d => simp [step, insert_closed b d hc, hc]
  | close => rfl
  | pull s => exact (remove_last_closed b.next s b).trans hc
  | wake s => exact (wait_loop_closed b.next s b).trans hc

theorem run_closed (ops : List op) :
    ∀ b : sbuffer, b.closed = true → (run b ops).1.closed = true := by
  induction ops with
  | nil => intro b hc; exact hc
  | cons o os ih => intro b hc; exact ih _ (step_closed b o hc)

/-- The readings returned to either thread are an initial segment of the
readings inserted; a registered thread that ran into one of the sentinel
returns has been given every inserted reading. -/
theorem delivered_fifo (A B : Nat) (hA : A ≠ 0) (hB : B ≠ 0) (hAB : A ≠ B) (x y : Nat)
    (ops : List op) (hops : by_roles A B ops) (s : Nat) (hs : s = A ∨ s = B) :
    delivered s (reach x y ops).2 <+: inserted (reach x y ops).2 ∧
    (s = x ∨ s = y → event.no_data s ∈ (reach x y ops).2 →
      delivered s (reach x y ops).2 = inserted (reach x y ops).2) := by
  have h := TI_reach A B x y hA hB hAB ops hops
  refine ⟨?_, fun hr hm => (TI_sentinel A B x y _ _ h s hs hr hm).2⟩
  obtain ⟨-, -, P, U, o, o1, hoo, -, -, -, hins, hdel, -⟩ := h
  have h1 : delivered o1 (reach x y ops).2
      <+: inserted (reach x y ops).2 := ⟨_, hins.symm⟩
  have h2 : delivered o (reach x y ops).2
      <+: inserted (reach x y ops).2 := by
    refine ⟨U.map fun c => c.data, ?_⟩
    rw [hins, hdel]
    simp
  rcases hoo with ⟨rfl, rfl⟩ | ⟨rfl, rfl⟩ <;> rcases hs with rfl | rfl <;> assumption

theorem remove_from_tail_data_aux (fuel self : Nat) (b : sbuffer) :
    ∀ r, r = remove_from_tail fuel self b → ∀ d, r.1 = .data d →
      ∃ a n, b.mem a = some n ∧ n.data = d := by
  intro r hr d h
  unfold remove_from_tail at hr
  repeat' first
    | (subst hr; exfalso; simp at h; done)
    | (subst hr; simp only [pull_result.data.injEq] at h; subst h;
       exact ⟨_, _, by assumption, rfl⟩)
    | split at hr
    | (dsimp only at hr; fail_if_no_progress split at hr)

theorem remove_last_data (fuel self : Nat) (b : sbuffer) (d : sensor_data_t)
    (h : (sbuffer_remove_last fuel self b).1 = .data d) :
    ∃ a n, b.mem a = some n ∧ n.data = d := by
  unfold sbuffer_remove_last wait_loop at h
  repeat' first
    | exact remove_from_tail_data_aux fuel self b _ rfl d h
    | split at h
    | (exfalso; simp at h)

theorem linked_mem (mem : Nat → Option sbuffer_node_t) (a : Nat) (n : sbuffer_node_t) :
    ∀ l, linked mem l → a ∈ addrs l → mem a = some n → n ∈ to_nodes l := by
  intro l
  induction l with
  | nil => intro _ ha; simp [addrs] at ha
  | cons c cs ih =>
    intro hl ha hm
    obtain ⟨h1, h2⟩ := hl
    by_cases hc : a = c.addr
    · subst hc
      rw [h1] at hm
      cases hm
      exact List.mem_cons_self _ _
    · have ha1 : a ∈ addrs cs := by
        simp only [addrs, List.map_cons, List.mem_cons] at ha
        rcases ha with ha | ha
        · exact absurd ha hc
        · exact ha
      exact List.mem_cons_of_mem _ (ih h2 ha1 hm)

theorem pulled_from_chain (b : sbuffer) (l : List cell) (hinv : Inv b l) (fuel self : Nat)
    (d : sensor_data_t) (h : (sbuffer_remove_last fuel self b).1 = .data d) :
    ∃ n ∈ chain b, n.data = d := by
  obtain ⟨a, n, hm, hd⟩ := remove_last_data fuel self b d h
  refine ⟨n, ?_, hd⟩
  rw [chain_eq b l hinv]
  exact linked_mem b.mem a n l hinv.2.2.1 (hinv.2.2.2.2.1 a n hm) hm

theorem no_more_data_iff (r : pull_result) :
    no_more_data r = true ↔ r = .no_data ∨ ∃ d, r = .data d ∧ d.value = .neg_infinity := by
  cases r <;> simp [no_more_data, returned_value]

theorem mem_delivered (s : Nat) (d : sensor_data_t) (evs : List event)
    (h : event.delivered s d ∈ evs) : d ∈ delivered s evs := by
  unfold delivered
  rw [List.mem_filterMap]
  exact ⟨_, h, by simp⟩

theorem got_no_more_data_iff (s : Nat) (evs : List event) :
    got_no_more_data s evs = true ↔
      event.no_data s ∈ evs ∨ ∃ d, event.delivered s d ∈ evs ∧ d.value = .neg_infinity := by
  unfold got_no_more_data
  rw [List.any_eq_true]
  constructor
  · rintro ⟨e, he, h⟩
    cases e <;> simp at h
    · obtain ⟨rfl, hv⟩ := h
      exact Or.inr ⟨_, he, hv⟩
    · subst h
      exact Or.inl he
  · rintro (h | ⟨d, h, hv⟩)
    · exact ⟨_, h, by simp⟩
    · exact ⟨_, h, by simp [hv]⟩

/-! ## The claims -/

/-- C1, as stated, fails on the code, in two ways. Started from
`sbuffer_create()` itself, where no role is registered yet: thread `1` calls
`sbuffer_remove_last` on the empty open queue and is returned the sentinel
(lines 151-155), then `reading1` is inserted; thread `1` has received the no
more data result and has been given nothing, while one reading was inserted.
With the threads `1` and `2` registered: after the insertion of a reading of
value `-INFINITY` and of `reading2`, the first call of thread `1` returns a
value of `-INFINITY` although two readings were inserted, and after its second
call the readings it took as readings, `reading2` alone, are not an initial
segment of the inserted ones. -/
theorem sentinel_before_all_delivered :
    (event.no_data 1 ∈ (reach 0 0 [.pull 1, .insert reading1]).2 ∧
      got_no_more_data 1 (reach 0 0 [.pull 1, .insert reading1]).2 = true ∧
      delivered 1 (reach 0 0 [.pull 1, .insert reading1]).2 = [] ∧
      received 1 (reach 0 0 [.pull 1, .insert reading1]).2 = [] ∧
      inserted (reach 0 0 [.pull 1, .insert reading1]).2 = [reading1]) ∧
    (got_no_more_data 1 (reach 1 2 [.insert reading_inf, .insert reading2, .pull 1]).2 = true ∧
      received 1 (reach 1 2 [.insert reading_inf, .insert reading2, .pull 1]).2 = [] ∧
      inserted (reach 1 2 [.insert reading_inf, .insert reading2, .pull 1]).2
        = [reading_inf, reading2]) ∧
    (received 1 (reach 1 2 [.insert reading_inf, .insert reading2, .pull 1, .pull 1]).2
        = [reading2] ∧
      inserted (reach 1 2 [.insert reading_inf, .insert reading2, .pull 1, .pull 1]).2
        = [reading_inf, reading2] ∧
      ¬ received 1 (reach 1 2 [.insert reading_inf, .insert reading2, .pull 1, .pull 1]).2
        <+: inserted (reach 1 2 [.insert reading_inf, .insert reading2, .pull 1, .pull 1]).2) := by
  decide

/-- C1, amended. Start from `sbuffer_create()`, with any identities `x`, `y`
registered through `mgrs` before the first call (`0 0`: none), and let two
distinct non-zero threads `A`, `B` make any finite sequence of atomic insert /
close / remove-last calls (and wake-ups) in which no inserted reading has the
value `-INFINITY`. Then every reading returned to either thread has a value
other than `-INFINITY`, so the thread takes it as a reading; the readings
returned to it are an initial segment of the readings inserted successfully,
in insertion order; and once a thread that is one of the two registered roles
has been returned a value of `-INFINITY`, it has been given every inserted
reading. -/
theorem fifo_per_role (A B : Nat) (hA : A ≠ 0) (hB : B ≠ 0) (hAB : A ≠ B) (x y : Nat)
    (ops : List op) (hops : by_roles A B ops)
    (hval : ∀ d ∈ inserted (reach x y ops).2, d.value ≠ .neg_infinity)
    (s : Nat) (hs : s = A ∨ s = B) :
    received s (reach x y ops).2 = delivered s (reach x y ops).2 ∧
    received s (reach x y ops).2 <+: inserted (reach x y ops).2 ∧
    (s = x ∨ s = y → got_no_more_data s (reach x y ops).2 = true →
      received s (reach x y ops).2 = inserted (reach x y ops).2) := by
  obtain ⟨hpre, hsent⟩ := delivered_fifo A B hA hB hAB x y ops hops s hs
  have hrec : received s (reach x y ops).2 = delivered s (reach x y ops).2 := by
    unfold received
    rw [List.filter_eq_self]
    intro d hd
    exact decide_eq_true (hval d (hpre.subset hd))
  refine ⟨hrec, ?_, fun hr hg => ?_⟩
  · rw [hrec]
    exact hpre
  · rw [hrec]
    apply hsent hr
    rcases (got_no_more_data_iff s _).1 hg with h | ⟨d, h, hv⟩
    · exact h
    · exact absurd hv (hval d (hpre.subset (mem_delivered s d _ h)))

theorem fifo_per_role_witness :
    (1 ≠ 0 ∧ 2 ≠ 0 ∧ 1 ≠ 2 ∧ by_roles 1 2 sample_ops ∧
      (∀ d ∈ inserted (reach 1 2 sample_ops).2, d.value ≠ .neg_infinity) ∧ (1 = 1 ∨ 1 = 2) ∧
      got_no_more_data 1 (reach 1 2 sample_ops).2 = true) ∧
    inserted (reach 1 2 sample_ops).2 = [reading1, reading2] ∧
    (received 1 (reach 1 2 sample_ops).2 = delivered 1 (reach 1 2 sample_ops).2 ∧
     received 1 (reach 1 2 sample_ops).2 <+: inserted (reach 1 2 sample_ops).2 ∧
     (1 = 1 ∨ 1 = 2 → got_no_more_data 1 (reach 1 2 sample_ops).2 = true →
      received 1 (reach 1 2 sample_ops).2 = inserted (reach 1 2 sample_ops).2)) :=
  ⟨⟨by decide, by decide, by decide, by decide, by decide, by decide, by decide⟩, by decide,
   fifo_per_role 1 2 (by decide) (by decide) (by decide) 1 2 sample_ops (by decide) (by decide) 1
     (by decide)⟩

/-- C2. In every state reached from `sbuffer_create()`, whatever identities
`x`, `y` are registered, by atomic insert / close / remove-last calls of two
consumers `A ≠ B` (both non-zero):
the chain from `tail` to `head` holds, in insertion order, the inserted
readings from which those already returned to both consumers have been
dropped, and no other node is live; a call of `sbuffer_remove_last` by `s`
unlinks and frees the oldest node exactly when the other consumer is ahead of
`s` (then `s` is the second to be given that reading), and otherwise keeps the
readings of the chain and the number of live nodes; and once both consumers
have been given every inserted reading, the chain has no node, `head` and
`tail` are `NULL`, and no node is live. -/
theorem reclamation_invariant (A B : Nat) (hA : A ≠ 0) (hB : B ≠ 0) (hAB : A ≠ B)
    (x y : Nat) (ops : List op) (hops : by_roles A B ops) :
    ((chain (reach x y ops).1).map (fun n => n.data)
      = (inserted (reach x y ops).2).drop
          (min (delivered A (reach x y ops).2).length (delivered B (reach x y ops).2).length)) ∧
    live_nodes (reach x y ops).1 = (chain (reach x y ops).1).length ∧
    (∀ s s1, (s = A ∧ s1 = B) ∨ (s = B ∧ s1 = A) →
      ((delivered s (reach x y ops).2).length < (delivered s1 (reach x y ops).2).length →
        (∃ d, (sbuffer_remove_last (reach x y ops).1.next s (reach x y ops).1).1 = .data d) ∧
        chain (sbuffer_remove_last (reach x y ops).1.next s (reach x y ops).1).2.1
          = (chain (reach x y ops).1).tail ∧
        live_nodes (sbuffer_remove_last (reach x y ops).1.next s (reach x y ops).1).2.1 + 1
          = live_nodes (reach x y ops).1) ∧
      ((delivered s1 (reach x y ops).2).length ≤ (delivered s (reach x y ops).2).length →
        (chain (sbuffer_remove_last (reach x y ops).1.next s (reach x y ops).1).2.1).map
            (fun n => n.data)
          = (chain (reach x y ops).1).map (fun n => n.data) ∧
        live_nodes (sbuffer_remove_last (reach x y ops).1.next s (reach x y ops).1).2.1
          = live_nodes (reach x y ops).1)) ∧
    (delivered A (reach x y ops).2 = inserted (reach x y ops).2 →
      delivered B (reach x y ops).2 = inserted (reach x y ops).2 →
      chain (reach x y ops).1 = [] ∧ (reach x y ops).1.head = none ∧
      (reach x y ops).1.tail = none ∧ live_nodes (reach x y ops).1 = 0) := by
  have h := TI_reach A B x y hA hB hAB ops hops
  obtain ⟨h1, h2, h3⟩ := TI_chain A B x y hA hB hAB _ _ h
  exact ⟨h1, h2, fun s s1 hs => pull_reclaims A B x y hA hB hAB _ _ h s s1 hs, h3⟩

theorem reclamation_invariant_witness :
    (1 ≠ 0 ∧ 2 ≠ 0 ∧ 1 ≠ 2 ∧ by_roles 1 2 sample_skew) ∧
    (chain (reach 1 2 sample_skew).1).map (fun n => n.data) = [reading2, reading3] ∧
    (inserted (reach 1 2 sample_skew).2).drop
        (min (delivered 1 (reach 1 2 sample_skew).2).length
          (delivered 2 (reach 1 2 sample_skew).2).length) = [reading2, reading3] ∧
    live_nodes (reach 1 2 sample_skew).1 = (chain (reach 1 2 sample_skew).1).length :=
  ⟨⟨by decide, by decide, by decide, by decide⟩, by decide, by decide,
   (reclamation_invariant 1 2 (by decide) (by decide) (by decide) 1 2 sample_skew
     (by decide)).2.1⟩

/-- C3. In every reachable state, `k` consecutive calls of `sbuffer_remove_last`
by one of the two consumers, `s`, with no call of the other consumer `s1` in
between, leave the ordered list of readings still to be given to `s1` (the
data of the chain nodes not marked by `s1`) as it was; and every node that was
live and not marked by `s1` before these calls is still live after them, with
the same reading and the same link, and still not marked by `s1`. -/
theorem independent_progress (A B : Nat) (hA : A ≠ 0) (hB : B ≠ 0) (hAB : A ≠ B)
    (x y : Nat) (ops : List op) (hops : by_roles A B ops) (s s1 : Nat)
    (hs : (s = A ∧ s1 = B) ∨ (s = B ∧ s1 = A)) (k : Nat) :
    pending s1 (run (reach x y ops).1 (List.replicate k (op.pull s))).1
      = pending s1 (reach x y ops).1 ∧
    ∀ a n, (reach x y ops).1.mem a = some n → n.readBy ≠ s1 →
      ∃ n1, (run (reach x y ops).1 (List.replicate k (op.pull s))).1.mem a = some n1 ∧
        n1.data = n.data ∧ n1.prev = n.prev ∧ n1.readBy ≠ s1 :=
  pulls_frame A B x y hA hB hAB s s1 hs k _ _ (TI_reach A B x y hA hB hAB ops hops)

theorem independent_progress_witness :
    (1 ≠ 0 ∧ 2 ≠ 0 ∧ 1 ≠ 2 ∧ by_roles 1 2 sample_skew ∧ ((1 = 1 ∧ 2 = 2) ∨ (1 = 2 ∧ 2 = 1))) ∧
    pending 2 (reach 1 2 sample_skew).1 = [reading2, reading3] ∧
    pending 2 (run (reach 1 2 sample_skew).1 (List.replicate 3 (op.pull 1))).1
      = pending 2 (reach 1 2 sample_skew).1 :=
  ⟨⟨by decide, by decide, by decide, by decide, by decide⟩, by decide,
   (independent_progress 1 2 (by decide) (by decide) (by decide) 1 2 sample_skew (by decide)
     1 2 (by decide) 3).1⟩

/-- C4, as stated, fails on the code: a reading of value `-INFINITY` and
`reading2` are inserted and the buffer is closed. Thread `1`, the registered
data manager, has consumed neither, and yet its call of `sbuffer_remove_last`
returns a struct whose `value` is `-INFINITY`, the no more data result for its
caller; after the call `reading2` is still in the chain, not consumed by
thread `1`. -/
theorem sentinel_value_while_pending :
    (reach 1 2 sample_inf).1.closed = true ∧
    pending 1 (reach 1 2 sample_inf).1 = [reading_inf, reading2] ∧
    returned_value (sbuffer_remove_last 2 1 (reach 1 2 sample_inf).1).1 = some .neg_infinity ∧
    no_more_data (sbuffer_remove_last 2 1 (reach 1 2 sample_inf).1).1 = true ∧
    pending 1 (sbuffer_remove_last 2 1 (reach 1 2 sample_inf).1).2.1 = [reading2] := by
  decide

/-- C4, amended. In every reachable state in which the buffer is closed, a call
of `sbuffer_remove_last` by either consumer `s`, given at least `next` steps
for its scan, returns: it does not suspend, abort or fault. It returns the
oldest reading of the chain that `s` has not been given, if there is one; it
returns through one of the statements that build the sentinel if and only if
there is none (every node of the chain is marked by `s`, or the chain is
empty); and the value it returns is `-INFINITY` if and only if there is none
or that oldest reading itself has the value `-INFINITY`. -/
theorem close_drains (A B : Nat) (hA : A ≠ 0) (hB : B ≠ 0) (hAB : A ≠ B)
    (x y : Nat) (ops : List op) (hops : by_roles A B ops)
    (hc : (reach x y ops).1.closed = true)
    (s s1 : Nat) (hs : (s = A ∧ s1 = B) ∨ (s = B ∧ s1 = A)) (fuel : Nat)
    (hfuel : (reach x y ops).1.next ≤ fuel) :
    ((∃ d, (sbuffer_remove_last fuel s (reach x y ops).1).1 = .data d) ∨
      (sbuffer_remove_last fuel s (reach x y ops).1).1 = .no_data) ∧
    (∀ d rest, pending s (reach x y ops).1 = d :: rest →
      (sbuffer_remove_last fuel s (reach x y ops).1).1 = .data d) ∧
    ((sbuffer_remove_last fuel s (reach x y ops).1).1 = .no_data
      ↔ pending s (reach x y ops).1 = []) ∧
    (no_more_data (sbuffer_remove_last fuel s (reach x y ops).1).1 = true
      ↔ pending s (reach x y ops).1 = [] ∨
        ∃ d rest, pending s (reach x y ops).1 = d :: rest ∧ d.value = .neg_infinity) := by
  rw [no_more_data_iff]
  rcases closed_pull A B x y hA hB hAB _ _ (TI_reach A B x y hA hB hAB ops hops) hc s s1 hs fuel hfuel
    with ⟨h1, h2⟩ | ⟨d, rest, h1, h2⟩
  · refine ⟨Or.inr h1, fun d rest hp => ?_, ⟨fun _ => h2, fun _ => h1⟩,
      ⟨fun _ => Or.inl h2, fun _ => Or.inl h1⟩⟩
    rw [h2] at hp
    cases hp
  · refine ⟨Or.inl ⟨d, h1⟩, fun d1 rest1 hp => ?_, ⟨fun hnd => ?_, fun hp => ?_⟩,
      ⟨fun hr => ?_, fun hr => ?_⟩⟩
    · rw [h2] at hp
      cases hp
      exact h1
    · rw [h1] at hnd
      cases hnd
    · rw [h2] at hp
      cases hp
    · rcases hr with hr | ⟨d1, hr, hv⟩
      · rw [h1] at hr
        cases hr
      · rw [h1] at hr
        cases hr
        exact Or.inr ⟨d, rest, h2, hv⟩
    · rcases hr with hr | ⟨d1, rest1, hr, hv⟩
      · rw [h2] at hr
        cases hr
      · rw [h2] at hr
        cases hr
        exact Or.inr ⟨d, h1, hv⟩

theorem close_drains_witness :
    (1 ≠ 0 ∧ 2 ≠ 0 ∧ 1 ≠ 2 ∧ by_roles 1 2 sample_closed ∧
      (reach 1 2 sample_closed).1.closed = true ∧ ((1 = 1 ∧ 2 = 2) ∨ (1 = 2 ∧ 2 = 1)) ∧
      (reach 1 2 sample_closed).1.next ≤ 2) ∧
    pending 1 (reach 1 2 sample_closed).1 = [reading2] ∧
    (sbuffer_remove_last 2 1 (reach 1 2 sample_closed).1).1 = .data reading2 :=
  ⟨⟨by decide, by decide, by decide, by decide, by decide, by decide, by decide⟩, by decide,
   (close_drains 1 2 (by decide) (by decide) (by decide) 1 2 sample_closed (by decide)
     (by decide) 1 2 (by decide) 2 (by decide)).2.1 reading2 [] (by decide)⟩

/-- C5. On a well-formed buffer `sbuffer_insert_first` returns, and it returns
`SBUFFER_FAILURE` if and only if the buffer is closed, in which case the whole
state (head, tail, every node, the closed flag) is unchanged. On an open buffer
it returns `SBUFFER_SUCCESS`; a node that was not live before holds a copy of
the reading, is unread, has no successor and is the new `head`; the chain is
the old chain followed by this node, reading by reading and mark by mark;
every node live before keeps its reading and its mark; and the closed flag is
unchanged. -/
theorem insert_first_contract (b : sbuffer) (l : List cell) (h : Inv b l)
    (d : sensor_data_t) :
    ∃ st b1 sg, sbuffer_insert_first b d = some (st, b1, sg) ∧
      (st = .SBUFFER_FAILURE ↔ b.closed = true) ∧
      (b.closed = true → b1 = b) ∧
      (b.closed = false →
        st = .SBUFFER_SUCCESS ∧
        b.mem b.next = none ∧
        b1.mem b.next = some { prev := none, data := d, readBy := 0 } ∧
        b1.head = some b.next ∧
        (chain b1).map (fun n => n.data) = (chain b).map (fun n => n.data) ++ [d] ∧
        (chain b1).map (fun n => n.readBy) = (chain b).map (fun n => n.readBy) ++ [0] ∧
        (∀ a n, b.mem a = some n →
          ∃ n1, b1.mem a = some n1 ∧ n1.data = n.data ∧ n1.readBy = n.readBy) ∧
        b1.closed = b.closed) := by
  by_cases hc : b.closed = true
  · refine ⟨.SBUFFER_FAILURE, b, [], insert_closed b d hc, by simp [hc], fun _ => rfl, ?_⟩
    intro ho
    rw [hc] at ho
    cases ho
  · have ho : b.closed = false := by simpa using hc
    obtain ⟨b1, hb1, hinv1, hcl, -, -, -⟩ := insert_open b d l h ho
    obtain ⟨hnew, hold⟩ := insert_keeps_nodes b l h d b1 _ hb1 ho
    refine ⟨.SBUFFER_SUCCESS, b1, _, hb1, by simp [ho], fun hc1 => absurd hc1 hc, fun _ => ?_⟩
    refine ⟨rfl, Inv_next_free b l h, hnew, ?_, ?_, ?_, hold, hcl⟩
    · rw [hinv1.2.1, addrs_append]
      simp [addrs]
    · rw [chain_eq _ _ hinv1, chain_eq _ _ h, to_nodes_data, to_nodes_data]
      simp
    · rw [chain_eq _ _ hinv1, chain_eq _ _ h, to_nodes_marks, to_nodes_marks]
      simp

theorem insert_first_contract_witness :
    Inv sbuffer_create [] ∧
    ∃ st b1 sg, sbuffer_insert_first sbuffer_create reading1 = some (st, b1, sg) ∧
      (st = .SBUFFER_FAILURE ↔ sbuffer_create.closed = true) ∧
      (sbuffer_create.closed = true → b1 = sbuffer_create) ∧
      (sbuffer_create.closed = false →
        st = .SBUFFER_SUCCESS ∧
        sbuffer_create.mem sbuffer_create.next = none ∧
        b1.mem sbuffer_create.next = some { prev := none, data := reading1, readBy := 0 } ∧
        b1.head = some sbuffer_create.next ∧
        (chain b1).map (fun n => n.data)
          = (chain sbuffer_create).map (fun n => n.data) ++ [reading1] ∧
        (chain b1).map (fun n => n.readBy)
          = (chain sbuffer_create).map (fun n => n.readBy) ++ [0] ∧
        (∀ a n, sbuffer_create.mem a = some n →
          ∃ n1, b1.mem a = some n1 ∧ n1.data = n.data ∧ n1.readBy = n.readBy) ∧
        b1.closed = sbuffer_create.closed) :=
  ⟨Inv_create, insert_first_contract sbuffer_create [] Inv_create reading1⟩

/-- C6. `sbuffer_destroy` tears down a buffer whose chain still has one node,
unread by both consumers: its only check is `head == tail`, which holds for a
chain of one node as it does for the empty chain. A chain of two nodes is
rejected. -/
theorem destroy_accepts_one_node :
    (chain (reach 1 2 [.insert reading1]).1).map (fun n => n.data) = [reading1] ∧
    pending 1 (reach 1 2 [.insert reading1]).1 = [reading1] ∧
    pending 2 (reach 1 2 [.insert reading1]).1 = [reading1] ∧
    (reach 1 2 [.insert reading1]).1.head = some 0 ∧
    (reach 1 2 [.insert reading1]).1.tail = some 0 ∧
    sbuffer_destroy (reach 1 2 [.insert reading1]).1 = some () ∧
    sbuffer_destroy (reach 1 2 [.insert reading1, .insert reading2]).1 = none := by
  decide

/-- C7, as stated, fails: thread `7`, registered neither as data manager (`1`)
nor as storage manager (`2`), is handed the reading of an unread node and the
node is marked with `7`; and when the oldest node is already marked by thread
`1`, the call of thread `7` is handed its reading and the node is unlinked and
freed. -/
theorem unregistered_caller_is_served :
    (7 ≠ (reach 1 2 [.insert reading1]).1.dataMgr ∧
      7 ≠ (reach 1 2 [.insert reading1]).1.strgMgr) ∧
    (sbuffer_remove_last 1 7 (reach 1 2 [.insert reading1]).1).1 = .data reading1 ∧
    (chain (sbuffer_remove_last 1 7 (reach 1 2 [.insert reading1]).1).2.1).map
      (fun n => n.readBy) = [7] ∧
    (sbuffer_remove_last 1 7 (reach 1 2 [.insert reading1, .pull 1]).1).1 = .data reading1 ∧
    live_nodes (reach 1 2 [.insert reading1, .pull 1]).1 = 1 ∧
    live_nodes (sbuffer_remove_last 1 7 (reach 1 2 [.insert reading1, .pull 1]).1).2.1 = 0 ∧
    (sbuffer_remove_last 1 7 (reach 1 2 [.insert reading1, .pull 1]).1).2.1.head = none := by
  decide

/-- C7, amended. On a buffer whose chain is empty (`head == NULL`), open or
closed, a call of `sbuffer_remove_last` by a thread that is neither the
registered data manager nor the registered storage manager returns the
sentinel at once: it does not suspend, it returns no reading, it signals
nothing and the state (every node, `head`, `tail`, the closed flag) is
unchanged. -/
theorem unregistered_caller_on_empty (b : sbuffer) (fuel self : Nat)
    (h1 : self ≠ b.dataMgr) (h2 : self ≠ b.strgMgr) (hn : b.head = none) :
    sbuffer_remove_last fuel self b = (.no_data, b, []) := by
  rw [remove_last_empty fuel self b hn]
  simp [h1, h2]

theorem unregistered_caller_on_empty_witness :
    (7 ≠ (mgrs sbuffer_create 1 2).dataMgr ∧ 7 ≠ (mgrs sbuffer_create 1 2).strgMgr ∧
      (mgrs sbuffer_create 1 2).head = none) ∧
    sbuffer_remove_last 0 7 (mgrs sbuffer_create 1 2) = (.no_data, mgrs sbuffer_create 1 2, []) :=
  ⟨⟨by decide, by decide, rfl⟩,
   unregistered_caller_on_empty (mgrs sbuffer_create 1 2) 0 7 (by decide) (by decide) rfl⟩

/-- C8. Thread `1`, the registered data manager, calls `sbuffer_remove_last` on
the empty open buffer and suspends inside the `while` loop; the buffer is
closed with nothing inserted; when the thread is woken, the loop condition is
false, and the assertion `head != NULL` of line 160 fails: the call aborts
instead of returning the sentinel. -/
theorem wake_after_close_aborts :
    (sbuffer_remove_last 0 1 (mgrs sbuffer_create 1 2)).1 = .wait_loop .dataMgrCond ∧
    (sbuffer_close (mgrs sbuffer_create 1 2)).1.head = none ∧
    (sbuffer_close (mgrs sbuffer_create 1 2)).1.closed = true ∧
    (sbuffer_remove_last_wake 0 1 (sbuffer_close (mgrs sbuffer_create 1 2)).1).1 = .abort ∧
    (reach 1 2 [.pull 1, .close, .wake 1]).2 = [.blocked 1, .closed, .crashed] := by
  decide

/-- C9. For every list `L` of readings and any two distinct threads `A ≠ 0` and
`B`, whatever threads are registered on the fresh buffer: inserting `L` in
order and then calling `sbuffer_remove_last` `|L|` times as `A` inserts every
reading and returns `L` to `A` in order, and leaves a chain of `|L|` nodes
holding `L`; closing the buffer and calling `sbuffer_remove_last` `|L|` times
as `B` returns `L` to `B` in order; one more call by `B` returns the sentinel;
and then the chain has no node, `head` and `tail` are `NULL`,
`sbuffer_is_empty` is true and no node is live. -/
theorem drain_with_full_skew (A B : Nat) (hA : A ≠ 0) (hAB : A ≠ B) (x y : Nat)
    (L : List sensor_data_t) :
    (reach x y (skew_fill A L)).2
      = L.map event.inserted ++ L.map (event.delivered A) ∧
    (chain (reach x y (skew_fill A L)).1).map (fun n => n.data) = L ∧
    (reach x y (skew_drain A B L)).2
      = L.map event.inserted ++ L.map (event.delivered A) ++ [event.closed]
          ++ L.map (event.delivered B) ++ [event.no_data B] ∧
    chain (reach x y (skew_drain A B L)).1 = [] ∧
    (reach x y (skew_drain A B L)).1.head = none ∧
    (reach x y (skew_drain A B L)).1.tail = none ∧
    (sbuffer_is_empty (reach x y (skew_drain A B L)).1).1 = true ∧
    live_nodes (reach x y (skew_drain A B L)).1 = 0 := by
  unfold reach
  obtain ⟨U, hev1, hinv1, hdata, hmark, hcl1⟩ :=
    inserts_run L (mgrs sbuffer_create x y) [] (Inv_mgrs_create x y) rfl
  subst hdata
  have hlen : (U.map fun c => c.data).length = U.length := List.length_map _ _
  obtain ⟨U1, hev2, hinv2, hdata2, hmark2, hcl2⟩ :=
    ahead_pulls_run A hA U (run (mgrs sbuffer_create x y)
      ((U.map fun c => c.data).map op.insert)).1 [] hinv1
      (fun x hx => absurd hx (List.not_mem_nil x)) hmark
  simp only [List.nil_append] at hinv2
  have hlen1 : (U.map fun c => c.data).length = U1.length := by
    rw [← hdata2, List.length_map]
  have hfill1 : (run (mgrs sbuffer_create x y) (skew_fill A (U.map fun c => c.data))).1
      = (run (run (mgrs sbuffer_create x y) ((U.map fun c => c.data).map op.insert)).1
          (List.replicate U.length (op.pull A))).1 := by
    rw [skew_fill, run_append, hlen]
  have hfill2 : (run (mgrs sbuffer_create x y) (skew_fill A (U.map fun c => c.data))).2
      = (U.map fun c => c.data).map event.inserted
          ++ (U.map fun c => c.data).map (event.delivered A) := by
    rw [skew_fill, run_append, hlen]
    dsimp only
    rw [hev1, hev2]
    simp [Function.comp]
  rw [← hfill1] at hinv2 hcl2
  have hinv3 := Inv_closed _ _ hinv2
  obtain ⟨hev4, hinv4, hcl4⟩ := behind_pulls_run A B hA hAB U1 _ hinv3 hmark2
  rw [← hlen1] at hev4 hinv4 hcl4
  have hfin := final_pull _ B hinv4 (hcl4.trans rfl)
  have hdrain2 : (run (mgrs sbuffer_create x y) (skew_drain A B (U.map fun c => c.data))).2
      = (U.map fun c => c.data).map event.inserted
          ++ (U.map fun c => c.data).map (event.delivered A) ++ [event.closed]
          ++ (U.map fun c => c.data).map (event.delivered B) ++ [event.no_data B] := by
    rw [skew_drain, run_append, run_append, run_append, run_one, run_one]
    rw [show ∀ b : sbuffer, step b op.close = ((sbuffer_close b).1, event.closed) from
      fun _ => rfl]
    dsimp only
    rw [hfill2, hev4, hfin, ← hdata2]
    simp [Function.comp]
  have hdrain1 : (run (mgrs sbuffer_create x y) (skew_drain A B (U.map fun c => c.data))).1
      = (run (sbuffer_close (run (mgrs sbuffer_create x y)
            (skew_fill A (U.map fun c => c.data))).1).1
          (List.replicate (U.map fun c => c.data).length (op.pull B))).1 := by
    rw [skew_drain, run_append, run_append, run_append, run_one, run_one]
    rw [show ∀ b : sbuffer, step b op.close = ((sbuffer_close b).1, event.closed) from
      fun _ => rfl]
    dsimp only
    rw [hfin]
  refine ⟨hfill2, ?_, hdrain2, ?_, ?_, ?_, ?_, ?_⟩
  · rw [chain_eq _ _ hinv2, to_nodes_data, hdata2]
  · rw [hdrain1, chain_eq _ _ hinv4]
    rfl
  · rw [hdrain1]
    exact (Inv_nil_head _ hinv4).1
  · rw [hdrain1]
    exact (Inv_nil_head _ hinv4).2
  · rw [hdrain1]
    exact decide_eq_true (Inv_nil_head _ hinv4).1
  · rw [hdrain1, live_nodes_eq _ _ hinv4]
    rfl

theorem drain_with_full_skew_witness :
    (1 ≠ 0 ∧ 1 ≠ 2) ∧
    (reach 0 0 (skew_drain 1 2 [reading1, reading2, reading3])).2
      = [reading1, reading2, reading3].map event.inserted
          ++ [reading1, reading2, reading3].map (event.delivered 1) ++ [event.closed]
          ++ [reading1, reading2, reading3].map (event.delivered 2) ++ [event.no_data 2] :=
  ⟨⟨by decide, by decide⟩,
   (drain_with_full_skew 1 2 (by decide) (by decide) 0 0 [reading1, reading2, reading3]).2.2.1⟩

/-- C10. `sbuffer_close` sets the closed flag and signals no condition
variable, whatever the state; and an insertion attempted after it is refused
without a signal either. So a thread suspended on the empty open buffer
(thread `1` below, waiting on `dataMgrCond`) is not woken by the close. -/
theorem close_signals_nothing :
    (∀ b : sbuffer, (sbuffer_close b).1.closed = true ∧ (sbuffer_close b).2 = []) ∧
    (sbuffer_remove_last 0 1 (mgrs sbuffer_create 1 2)).1 = .wait_loop .dataMgrCond ∧
    (sbuffer_close (mgrs sbuffer_create 1 2)).2 = [] ∧
    ((sbuffer_insert_first (sbuffer_close (mgrs sbuffer_create 1 2)).1 reading1).map
      fun r => (r.1, r.2.2)) = some (.SBUFFER_FAILURE, []) :=
  ⟨fun _ => ⟨rfl, rfl⟩, by decide, rfl, by decide⟩

/-- C11. On every empty open buffer (`head` and `tail` are `NULL`, `closed` is
false) and for every reading `r`, `sbuffer_insert_first` returns
`SBUFFER_SUCCESS` and signals both condition variables, `dataMgrCond` and
`strgMgrCond`; and in the state it leaves, the next call of
`sbuffer_remove_last` by any thread, as well as the wake-up of a thread that was
suspended in the `while` loop, returns exactly `r`: it neither suspends nor
returns the sentinel. -/
theorem wake_and_deliver (b : sbuffer) (r : sensor_data_t) (hh : b.head = none)
    (ht : b.tail = none) (ho : b.closed = false) (self fuel : Nat) :
    ∃ b1, sbuffer_insert_first b r
        = some (.SBUFFER_SUCCESS, b1, [cond_t.dataMgrCond, cond_t.strgMgrCond]) ∧
      (sbuffer_remove_last fuel self b1).1 = .data r ∧
      (sbuffer_remove_last_wake fuel self b1).1 = .data r := by
  refine ⟨{ b with mem := store b.mem b.next (some { prev := none, data := r, readBy := 0 }),
                   next := b.next + 1, head := some b.next, tail := some b.next }, ?_, ?_, ?_⟩
  · simp [sbuffer_insert_first, sbuffer_is_closed, ho, create_node, hh, ht]
  · simp [sbuffer_remove_last, remove_from_tail, store_same]
  · simp [sbuffer_remove_last_wake, wait_loop, remove_from_tail, store_same]

theorem wake_and_deliver_witness :
    ((mgrs sbuffer_create 1 2).head = none ∧ (mgrs sbuffer_create 1 2).tail = none ∧
      (mgrs sbuffer_create 1 2).closed = false) ∧
    ∃ b1, sbuffer_insert_first (mgrs sbuffer_create 1 2) reading1
        = some (.SBUFFER_SUCCESS, b1, [cond_t.dataMgrCond, cond_t.strgMgrCond]) ∧
      (sbuffer_remove_last 1 2 b1).1 = .data reading1 ∧
      (sbuffer_remove_last_wake 1 2 b1).1 = .data reading1 :=
  ⟨⟨rfl, rfl, rfl⟩, wake_and_deliver (mgrs sbuffer_create 1 2) reading1 rfl rfl rfl 2 1⟩

/-- C12, as stated, fails: `main` accepts the arguments `-5`, `70000` and ` 80`
(with a leading blank) and goes on to create the buffer and start the threads,
with the port numbers `-5`, `70000` and `80`. -/
theorem out_of_range_ports_accepted :
    main ["main".toList, "-5".toList] = .serves (-5) ∧
    main ["main".toList, "70000".toList] = .serves 70000 ∧
    main ["main".toList, " 80".toList] = .serves 80 := by
  decide

/-- C12, amended. For every argument vector, `main` prints the usage line and
returns the non-zero status `-1`, before the buffer is created or a thread is
started, if and only if the number of arguments is not exactly one or the
single argument is not of the form: optional white space, an optional `+` or
`-` sign, one or more decimal digits, and nothing after them. In every other
case control reaches line 77, where the buffer is created. -/
theorem command_line_check (argv : List (List Char)) :
    (main argv = .usage (-1) ↔ ¬ ∃ p a, argv = [p, a] ∧ port_argument a) ∧
    ((∃ port, main argv = .serves port) ↔ ∃ p a, argv = [p, a] ∧ port_argument a) ∧
    (main argv = print_usage ∨ ∃ port, main argv = .serves port) ∧
    print_usage = .usage (-1) ∧ (-1 : Int) ≠ 0 := by
  have h1 := main_usage_iff argv
  have h3 : main argv = print_usage ∨ ∃ port, main argv = .serves port := by
    unfold main
    by_cases hl : argv.length ≠ 2
    · rw [if_pos hl]
      exact Or.inl rfl
    · rw [if_neg hl]
      dsimp only
      split_ifs
      · exact Or.inl rfl
      · exact Or.inr ⟨_, rfl⟩
  refine ⟨h1, ⟨fun ⟨port, hp⟩ => ?_, fun hex => ?_⟩, h3, rfl, by decide⟩
  · by_contra hne
    rw [h1.2 hne] at hp
    cases hp
  · rcases h3 with hu | hs
    · exact absurd hex (h1.1 hu)
    · exact hs

/-- C13. On every buffer whose closed flag is true, whatever the rest of the
state: `sbuffer_insert_first` is refused and leaves the state as it is, and
after `sbuffer_remove_last` (a fresh call or a wake-up, by any thread),
`sbuffer_close`, `sbuffer_is_empty`, `sbuffer_is_closed` and `mgrs` the flag is
still true, as it is after any sequence of such calls; the flag is false in the
state `sbuffer_create` returns. -/
theorem closed_is_monotone (b : sbuffer) (hc : b.closed = true) :
    (∀ d, sbuffer_insert_first b d = some (.SBUFFER_FAILURE, b, [])) ∧
    (∀ fuel self, (sbuffer_remove_last fuel self b).2.1.closed = true) ∧
    (∀ fuel self, (sbuffer_remove_last_wake fuel self b).2.1.closed = true) ∧
    (sbuffer_close b).1.closed = true ∧
    (sbuffer_is_empty b).2.closed = true ∧
    (sbuffer_is_closed b).2.closed = true ∧
    (∀ p q, (mgrs b p q).closed = true) ∧
    (∀ ops, (run b ops).1.closed = true) ∧
    sbuffer_create.closed = false :=
  ⟨fun d => insert_closed b d hc,
   fun fuel self => (remove_last_closed fuel self b).trans hc,
   fun fuel self => (wait_loop_closed fuel self b).trans hc,
   rfl, hc, hc, fun _ _ => hc, fun ops => run_closed ops b hc, rfl⟩

theorem closed_is_monotone_witness :
    (reach 1 2 sample_closed).1.closed = true ∧
    (sbuffer_insert_first (reach 1 2 sample_closed).1 reading3).map (fun r => r.1)
      = some .SBUFFER_FAILURE ∧
    (sbuffer_remove_last 2 2 (reach 1 2 sample_closed).1).2.1.closed = true ∧
    (mgrs (reach 1 2 sample_closed).1 5 6).closed = true :=
  ⟨by decide,
   by rw [(closed_is_monotone (reach 1 2 sample_closed).1 (by decide)).1 reading3]; rfl,
   (closed_is_monotone (reach 1 2 sample_closed).1 (by decide)).2.1 2 2,
   (closed_is_monotone (reach 1 2 sample_closed).1 (by decide)).2.2.2.2.2.2.1 5 6⟩

/-- C14. In every state reached from `sbuffer_create()`, whatever identities
are registered, by atomic insert / close / remove-last calls (and wake-ups) of
two distinct non-zero consumers: `head == tail` if and only if the chain has at
most one node; `head` is `NULL` if and only if `tail` is `NULL`, if and only if
the chain has no node; and the node `head` points to is live and its `prev`
link is `NULL`. -/
theorem head_tail_shape (A B : Nat) (hA : A ≠ 0) (hB : B ≠ 0) (hAB : A ≠ B) (x y : Nat)
    (ops : List op) (hops : by_roles A B ops) :
    ((reach x y ops).1.head = (reach x y ops).1.tail
      ↔ (chain (reach x y ops).1).length ≤ 1) ∧
    ((reach x y ops).1.head = none ↔ (reach x y ops).1.tail = none) ∧
    ((reach x y ops).1.head = none ↔ chain (reach x y ops).1 = []) ∧
    (∀ a, (reach x y ops).1.head = some a →
      ∃ n, (reach x y ops).1.mem a = some n ∧ n.prev = none) := by
  obtain ⟨l, hinv⟩ := TI_inv A B x y _ _ (TI_reach A B x y hA hB hAB ops hops)
  exact Inv_shape _ l hinv

theorem head_tail_shape_witness :
    (1 ≠ 0 ∧ 2 ≠ 0 ∧ 1 ≠ 2 ∧ by_roles 1 2 sample_skew) ∧
    (chain (reach 1 2 sample_skew).1).length = 2 ∧
    ((reach 1 2 sample_skew).1.head = (reach 1 2 sample_skew).1.tail
      ↔ (chain (reach 1 2 sample_skew).1).length ≤ 1) ∧
    ((reach 1 2 sample_skew).1.head = none ↔ (reach 1 2 sample_skew).1.tail = none) :=
  ⟨⟨by decide, by decide, by decide, by decide⟩, by decide,
   (head_tail_shape 1 2 (by decide) (by decide) (by decide) 1 2 sample_skew (by decide)).1,
   (head_tail_shape 1 2 (by decide) (by decide) (by decide) 1 2 sample_skew (by decide)).2.1⟩

/-- C15. In every state reached from `sbuffer_create()`, whatever identities
are registered, by atomic insert / close / remove-last calls (and wake-ups) of
two distinct non-zero consumers `A`, `B`: the `readBy` marks along the chain,
from `tail` to `head`, are `k` times the identity of one of the two consumers
followed by zeros only; and no call of `sbuffer_remove_last`, by any thread and
with any bound on its scan, runs the unlinking of lines 226-234. -/
theorem single_owner_marked_run (A B : Nat) (hA : A ≠ 0) (hB : B ≠ 0) (hAB : A ≠ B)
    (x y : Nat) (ops : List op) (hops : by_roles A B ops) :
    (∃ o k, (o = A ∨ o = B) ∧ k ≤ (chain (reach x y ops).1).length ∧
      (chain (reach x y ops).1).map (fun n => n.readBy)
        = List.replicate k o ++ List.replicate ((chain (reach x y ops).1).length - k) 0) ∧
    (∀ s fuel, mid_chain_unlink fuel s (reach x y ops).1 = false) :=
  ⟨TI_marks A B x y _ _ (TI_reach A B x y hA hB hAB ops hops),
   fun s fuel => mid_chain_unreachable A B x y hA hB _ _ (TI_reach A B x y hA hB hAB ops hops)
     s fuel⟩

theorem single_owner_marked_run_witness :
    (1 ≠ 0 ∧ 2 ≠ 0 ∧ 1 ≠ 2 ∧ by_roles 1 2 sample_skew) ∧
    (chain (reach 1 2 sample_skew).1).map (fun n => n.readBy) = [1, 0] ∧
    mid_chain_unlink 2 1 sample_mixed = true ∧
    mid_chain_unlink 3 1 (reach 1 2 sample_skew).1 = false :=
  ⟨⟨by decide, by decide, by decide, by decide⟩, by decide, by decide,
   (single_owner_marked_run 1 2 (by decide) (by decide) (by decide) 1 2 sample_skew
     (by decide)).2 1 3⟩

/-- C16. Whenever `sbuffer_insert_first` returns, it has inserted if and only
if the buffer was open, and it has signalled the two condition variables if
and only if it has inserted and `head` was `NULL` just before; otherwise it has
signalled nothing. Hence in the reachable open state in which thread `1` has
been given every node of the chain and thread `2` none, where a call of
`sbuffer_remove_last` by thread `1` takes the suspending path of lines 194-216
(on `dataMgrCond`): the next insertion succeeds, signals no condition variable,
and leaves a reading that the next call of thread `1` returns. -/
theorem insert_wake_condition :
    (∀ b d r, sbuffer_insert_first b d = some r →
      (r.1 = .SBUFFER_SUCCESS ↔ b.closed = false) ∧
      (r.2.2 = [cond_t.dataMgrCond, cond_t.strgMgrCond]
        ↔ (b.closed = false ∧ b.head = none)) ∧
      (r.2.2 = [] ↔ ¬ (b.closed = false ∧ b.head = none))) ∧
    (by_roles 1 2 sample_ahead ∧
     (reach 1 2 sample_ahead).1.closed = false ∧
     pending 1 (reach 1 2 sample_ahead).1 = [] ∧
     pending 2 (reach 1 2 sample_ahead).1 = [reading1] ∧
     sbuffer_remove_last 1 1 (reach 1 2 sample_ahead).1
       = (.wait_retry (some .dataMgrCond), (reach 1 2 sample_ahead).1, [cond_t.strgMgrCond]) ∧
     (sbuffer_insert_first (reach 1 2 sample_ahead).1 reading2).map (fun r => (r.1, r.2.2))
       = some (.SBUFFER_SUCCESS, []) ∧
     pending 1 (reach 1 2 (sample_ahead ++ [.insert reading2])).1 = [reading2] ∧
     (sbuffer_remove_last 2 1 (reach 1 2 (sample_ahead ++ [.insert reading2])).1).1
       = .data reading2) :=
  ⟨fun b d r h => insert_signals b d r h,
   by decide, by decide, by decide, by decide, by rfl, by decide, by decide, by decide⟩

theorem insert_wake_condition_witness :
    ∃ r, sbuffer_insert_first (reach 1 2 sample_ahead).1 reading2 = some r ∧
      r.1 = .SBUFFER_SUCCESS ∧
      (r.2.2 = []
        ↔ ¬ ((reach 1 2 sample_ahead).1.closed = false ∧
              (reach 1 2 sample_ahead).1.head = none)) :=
  ⟨((sbuffer_insert_first (reach 1 2 sample_ahead).1 reading2).getD
      (.SBUFFER_FAILURE, sbuffer_create, [])), rfl, rfl,
   (insert_wake_condition.1 (reach 1 2 sample_ahead).1 reading2 _ rfl).2.2⟩

/-- C17, as stated, fails on the code: on the closed buffer holding a reading
of value `-INFINITY` and `reading2`, the call of thread `1` returns a value of
`-INFINITY`, the no more data result for its caller, and has changed the state:
the oldest node is now marked as read by thread `1`. After that the call of
thread `2` returns a value of `-INFINITY` as well and has unlinked and freed
that node: `tail` has moved and one live node is left of two. -/
theorem sentinel_valued_pull_changes_state :
    (reach 1 2 sample_inf).1.closed = true ∧
    no_more_data (sbuffer_remove_last 2 1 (reach 1 2 sample_inf).1).1 = true ∧
    (chain (reach 1 2 sample_inf).1).map (fun n => n.readBy) = [0, 0] ∧
    (chain (sbuffer_remove_last 2 1 (reach 1 2 sample_inf).1).2.1).map
      (fun n => n.readBy) = [1, 0] ∧
    (reach 1 2 (sample_inf ++ [.pull 1])).1.closed = true ∧
    no_more_data (sbuffer_remove_last 2 2 (reach 1 2 (sample_inf ++ [.pull 1])).1).1 = true ∧
    (reach 1 2 (sample_inf ++ [.pull 1])).1.tail = some 0 ∧
    (sbuffer_remove_last 2 2 (reach 1 2 (sample_inf ++ [.pull 1])).1).2.1.tail = some 1 ∧
    live_nodes (reach 1 2 (sample_inf ++ [.pull 1])).1 = 2 ∧
    live_nodes (sbuffer_remove_last 2 2 (reach 1 2 (sample_inf ++ [.pull 1])).1).2.1 = 1 := by
  decide

/-- C17, amended. In every state reached from `sbuffer_create()`, whatever
identities are registered, by atomic calls of two distinct non-zero consumers,
closed or not: whenever a call of `sbuffer_remove_last`, by any thread, returns
through one of the statements that build the sentinel, the state after it is
the state before it (`head`, `tail`, every node with its reading, link and
mark, the closed flag) and nothing has been signalled; so, when no reading of
the chain has the value `-INFINITY`, every call that returns a value of
`-INFINITY` leaves the state as it was and signals nothing.
`sbuffer_is_empty` and `sbuffer_is_closed` leave the state as it is;
`sbuffer_is_empty` returns true if and only if the chain has no node; and
`sbuffer_is_closed` returns the closed flag. -/
theorem no_data_pulls_pure (A B : Nat) (hA : A ≠ 0) (hB : B ≠ 0) (hAB : A ≠ B)
    (x y : Nat) (ops : List op) (hops : by_roles A B ops) :
    (∀ fuel s, (sbuffer_remove_last fuel s (reach x y ops).1).1 = .no_data →
      (sbuffer_remove_last fuel s (reach x y ops).1).2.1 = (reach x y ops).1 ∧
      (sbuffer_remove_last fuel s (reach x y ops).1).2.2 = []) ∧
    ((∀ n ∈ chain (reach x y ops).1, n.data.value ≠ .neg_infinity) →
      ∀ fuel s, no_more_data (sbuffer_remove_last fuel s (reach x y ops).1).1 = true →
        (sbuffer_remove_last fuel s (reach x y ops).1).2.1 = (reach x y ops).1 ∧
        (sbuffer_remove_last fuel s (reach x y ops).1).2.2 = []) ∧
    (sbuffer_is_empty (reach x y ops).1).2 = (reach x y ops).1 ∧
    (sbuffer_is_closed (reach x y ops).1).2 = (reach x y ops).1 ∧
    ((sbuffer_is_empty (reach x y ops).1).1 = true ↔ chain (reach x y ops).1 = []) ∧
    (sbuffer_is_closed (reach x y ops).1).1 = (reach x y ops).1.closed := by
  obtain ⟨l, hinv⟩ := TI_inv A B x y _ _ (TI_reach A B x y hA hB hAB ops hops)
  refine ⟨fun fuel s h => remove_last_no_data fuel s _ h, fun hv fuel s h => ?_, rfl, rfl, ?_, rfl⟩
  · rcases (no_more_data_iff _).1 h with h1 | ⟨d, h1, hd⟩
    · exact remove_last_no_data fuel s _ h1
    · obtain ⟨n, hn, hnd⟩ := pulled_from_chain _ l hinv fuel s d h1
      rw [← hnd] at hd
      exact absurd hd (hv n hn)
  · rw [← (Inv_shape _ l hinv).2.2.1]
    simp [sbuffer_is_empty]

theorem no_data_pulls_pure_witness :
    (1 ≠ 0 ∧ 2 ≠ 0 ∧ 1 ≠ 2 ∧ by_roles 1 2 [.insert reading1, .pull 1, .close] ∧
      (∀ n ∈ chain (reach 1 2 [.insert reading1, .pull 1, .close]).1,
        n.data.value ≠ .neg_infinity) ∧
      no_more_data
        (sbuffer_remove_last 1 1 (reach 1 2 [.insert reading1, .pull 1, .close]).1).1 = true) ∧
    (reach 1 2 [.insert reading1, .pull 1, .close]).1.closed = true ∧
    (chain (reach 1 2 [.insert reading1, .pull 1, .close]).1).map (fun n => n.data)
      = [reading1] ∧
    ((sbuffer_remove_last 1 1 (reach 1 2 [.insert reading1, .pull 1, .close]).1).2.1
        = (reach 1 2 [.insert reading1, .pull 1, .close]).1 ∧
      (sbuffer_remove_last 1 1 (reach 1 2 [.insert reading1, .pull 1, .close]).1).2.2 = []) :=
  ⟨⟨by decide, by decide, by decide, by decide, by decide, by decide⟩, by decide, by decide,
   (no_data_pulls_pure 1 2 (by decide) (by decide) (by decide) 1 2
     [.insert reading1, .pull 1, .close] (by decide)).2.1 (by decide) 1 1 (by decide)⟩

end SBuffer
